import Mathlib

/-!
Verification development for the dragontoothmg pseudo-legal chess move
generator (`movegen.go`).  The board is a pair of per-side bitboard sets
(64-bit masks over squares 0..63, a1 = 0), and the generators enumerate
pseudo-legal moves.  Machine `uint64` values are modelled as `Nat` with
explicit reduction `% 2^64` wherever Go arithmetic can overflow; Go's
shift semantics (shift count ≥ width yields 0) fall out of that
reduction.  Array indexing into the precomputed lookup tables is
modelled with `Option`: `none` corresponds to an out-of-range index
(a fatal runtime error in Go).
-/

namespace Dragontooth

/-- The modulus of 64-bit words. -/
def U64MOD : Nat := 2 ^ 64

/-- Go `x << n` on `uint64`: shift then wrap to 64 bits.  For `n ≥ 64` the
result is 0, exactly as in Go. -/
def shl64 (x n : Nat) : Nat := (x <<< n) % U64MOD

/-- Go `^x` on `uint64`: bitwise complement within 64 bits. -/
def compl64 (x : Nat) : Nat := 0xFFFFFFFFFFFFFFFF ^^^ x

/-- Count of trailing zero bits, by parity recursion, examining at most
`fuel` low bits (and answering `fuel` when they are all clear). -/
def tzAux : Nat → Nat → Nat
  | 0, _ => 0
  | fuel + 1, x => if x % 2 = 1 then 0 else 1 + tzAux fuel (x / 2)

/-- Go `bits.TrailingZeros64`: index of the lowest set bit among bits
0..63, and 64 when none of those bits is set (in particular for 0). -/
def tz64 (x : Nat) : Nat := tzAux 64 x

/-- Modelled from the spec: the attack-mask tables for knights and kings
(`knightMasks`, `kingMasks`) are external precomputed per-square
reachable-square bitmasks; this helper builds such a mask from a list of
(file, rank) offsets, dropping off-board destinations. -/
def maskFromOffsets (sq : Nat) (offs : List (Int × Int)) : Nat :=
  let f : Int := (sq : Int) % 8
  let r : Int := (sq : Int) / 8
  offs.foldl
    (fun acc d =>
      let nf := f + d.1
      let nr := r + d.2
      if 0 ≤ nf ∧ nf ≤ 7 ∧ 0 ≤ nr ∧ nr ≤ 7 then
        acc ||| shl64 1 (nr * 8 + nf).toNat
      else acc)
    0

/-- Modelled from the spec: the knight move offsets. -/
def knightOffsets : List (Int × Int) :=
  [(1, 2), (2, 1), (2, -1), (1, -2), (-1, -2), (-2, -1), (-2, 1), (-1, 2)]

/-- Modelled from the spec: the king move offsets. -/
def kingOffsets : List (Int × Int) :=
  [(1, 0), (1, 1), (0, 1), (-1, 1), (-1, 0), (-1, -1), (0, -1), (1, -1)]

/-- Modelled from the spec: entry of the external `knightMasks` table. -/
def knightMaskAt (sq : Nat) : Nat := maskFromOffsets sq knightOffsets

/-- Modelled from the spec: entry of the external `kingMasks` table. -/
def kingMaskAt (sq : Nat) : Nat := maskFromOffsets sq kingOffsets

/-- Modelled from the spec: `knightMasks` is a 64-entry array; indexing it
out of range is a fatal error, modelled as `none`. -/
def knightMasks (sq : Nat) : Option Nat :=
  if sq < 64 then some (knightMaskAt sq) else none

/-- Modelled from the spec: `kingMasks` is a 64-entry array; indexing it
out of range is a fatal error, modelled as `none`. -/
def kingMasks (sq : Nat) : Option Nat :=
  if sq < 64 then some (kingMaskAt sq) else none

/-- Modelled from the spec: walk one sliding-piece ray from (f, r) in
direction (df, dr), collecting squares up to and including the first
occupied square, as the magic move tables do. -/
def walkRay (occ : Nat) (f r df dr : Int) : Nat → Nat
  | 0 => 0
  | fuel + 1 =>
    let nf := f + df
    let nr := r + dr
    if 0 ≤ nf ∧ nf ≤ 7 ∧ 0 ≤ nr ∧ nr ≤ 7 then
      let s := (nr * 8 + nf).toNat
      if occ.testBit s then shl64 1 s
      else shl64 1 s ||| walkRay occ nf nr df dr fuel
    else 0

/-- Modelled from the spec: union of the rays of a sliding family. -/
def slideAttacks (occ sq : Nat) (dirs : List (Int × Int)) : Nat :=
  dirs.foldl
    (fun acc d => acc ||| walkRay occ ((sq : Int) % 8) ((sq : Int) / 8) d.1 d.2 8) 0

/-- Modelled from the spec: rook-family reachable squares from `sq` given
occupancy `occ` (first blocker included). -/
def rookAttacksAt (sq occ : Nat) : Nat :=
  slideAttacks occ sq [(1, 0), (-1, 0), (0, 1), (0, -1)]

/-- Modelled from the spec: bishop-family reachable squares from `sq`
given occupancy `occ` (first blocker included). -/
def bishopAttacksAt (sq occ : Nat) : Nat :=
  slideAttacks occ sq [(1, 1), (1, -1), (-1, 1), (-1, -1)]

/-- Modelled from the spec: the composite rook magic lookup
`magicMovesRook[sq][(occ & magicRookBlockerMasks[sq]) * magicNumberRook[sq] >> magicRookShifts[sq]]`.
The external tables are 64-entry arrays, so a square index out of range
is a fatal error, modelled as `none`; the table contract says the lookup
yields exactly the squares reachable from `sq` under occupancy `occ`. -/
def magicRookAttacks (sq occ : Nat) : Option Nat :=
  if sq < 64 then some (rookAttacksAt sq occ) else none

/-- Modelled from the spec: the composite bishop magic lookup, as for
rooks. -/
def magicBishopAttacks (sq occ : Nat) : Option Nat :=
  if sq < 64 then some (bishopAttacksAt sq occ) else none

/-- Modelled from the spec: promotion piece constants in ascending order
`Knight < Bishop < Rook < Queen`; 0 encodes "no promotion". -/
def Knight : Nat := 2

/-- Modelled from the spec: see `Knight`. -/
def Bishop : Nat := 3

/-- Modelled from the spec: see `Knight`. -/
def Rook : Nat := 4

/-- Modelled from the spec: see `Knight`. -/
def Queen : Nat := 5

/-- Modelled from the spec: the promotion loop
`for i := Piece(Knight); i <= Queen; i++` enumerates exactly these four
pieces in this order. -/
def promoPieces : List Nat := [Knight, Bishop, Rook, Queen]

/-- Modelled from the spec: the compact `Move` value holds an origin
square, a destination square and an optional promotion piece (0 when
absent); two moves are equal iff all three fields match. -/
structure Move where
  fromSq : Nat
  toSq : Nat
  promote : Nat
deriving DecidableEq, Repr

/-- Modelled from the spec: `Move.Setfrom`, returning the updated value. -/
def Move.Setfrom (m : Move) (s : Nat) : Move := { m with fromSq := s }

/-- Modelled from the spec: `Move.Setto`, returning the updated value. -/
def Move.Setto (m : Move) (s : Nat) : Move := { m with toSq := s }

/-- Modelled from the spec: `Move.Setpromote`, returning the updated
value. -/
def Move.Setpromote (m : Move) (p : Nat) : Move := { m with promote := p }

/-- Go conversion `Square(x)` of a (possibly negative) `int` to the
`uint8` square type: reduction modulo 256. -/
def intToSquare (x : Int) : Nat := (x % 256).toNat

/-- One side's bitboard set (`bitboards` in types.go): six piece masks
plus the aggregate occupancy mask, each a `uint64`. -/
structure bitboards where
  pawns : Nat
  knights : Nat
  bishops : Nat
  rooks : Nat
  queens : Nat
  kings : Nat
  all : Nat
deriving DecidableEq, BEq, Repr

/-- Modelled from the spec: the board state consumed by the core — two
per-side bitboard sets, the side to move, the en-passant target square
(`uint8`, 0 when absent) and four independent castling-rights booleans. -/
structure Board where
  white : bitboards
  black : bitboards
  wtomove : Bool
  enpassant : Nat
  castleWK : Bool
  castleWQ : Bool
  castleBK : Bool
  castleBQ : Bool
deriving DecidableEq, BEq, Repr

/-- Modelled from the spec: castling-rights accessor used by `kingMoves`. -/
def Board.whiteCanCastleKingside (b : Board) : Bool := b.castleWK

/-- Modelled from the spec: castling-rights accessor used by `kingMoves`. -/
def Board.whiteCanCastleQueenside (b : Board) : Bool := b.castleWQ

/-- Modelled from the spec: castling-rights accessor used by `kingMoves`. -/
def Board.blackCanCastleKingside (b : Board) : Bool := b.castleBK

/-- Modelled from the spec: castling-rights accessor used by `kingMoves`. -/
def Board.blackCanCastleQueenside (b : Board) : Bool := b.castleBQ

/-- The shape of every extraction loop in movegen.go:
`for x != 0 { t := bits.TrailingZeros64(x); x &= x - 1; emit block(t) }`,
emitting the per-bit blocks in ascending bit order.  The loop strictly
decreases `x` (clearing the lowest set bit), so running it with `x`
itself as structural fuel reproduces the Go loop exactly; the fuel-zero
branch is unreachable from `x ≤ fuel`. -/
def bitLoopFlatAux (blockOf : Nat → List Move) : Nat → Nat → List Move
  | 0, _ => []
  | fuel + 1, x =>
    if x = 0 then []
    else blockOf (tz64 x) ++ bitLoopFlatAux blockOf fuel (x &&& (x - 1))

/-- The extraction loop, entered with sufficient fuel. -/
def bitLoopFlat (blockOf : Nat → List Move) (x : Nat) : List Move :=
  bitLoopFlatAux blockOf x x

/-- The same extraction loop for bodies that perform (fallible) table
lookups. -/
def bitLoopFlatMAux (blockOf : Nat → Option (List Move)) : Nat → Nat → Option (List Move)
  | 0, _ => some []
  | fuel + 1, x =>
    if x = 0 then some []
    else
      (blockOf (tz64 x)).bind fun blk =>
      (bitLoopFlatMAux blockOf fuel (x &&& (x - 1))).bind fun rest =>
      some (blk ++ rest)

/-- The fallible extraction loop, entered with sufficient fuel. -/
def bitLoopFlatM (blockOf : Nat → Option (List Move)) (x : Nat) : Option (List Move) :=
  bitLoopFlatMAux blockOf x x

/-- `genMovesFromTargets`: converts a targets bitboard into moves from
`origin`, in ascending target order. -/
def genMovesFromTargets (origin : Nat) (targets : Nat) : List Move :=
  bitLoopFlat (fun target => [((Move.mk 0 0 0).Setfrom origin).Setto target]) targets

/-- The promotion test of the pawn generators: `canPromote` is
`target >= 56` when white is to move and `target <= 7` when black is to
move. -/
@[reducible] def canPromoteAt (wtomove : Bool) (target : Nat) : Prop :=
  (wtomove = true ∧ 56 ≤ target) ∨ (wtomove = false ∧ target ≤ 7)

/-- `pawnPushBitboards`: single-push and double-push target bitboards. -/
def pawnPushBitboards (b : Board) : Nat × Nat :=
  let free := compl64 b.white.all &&& compl64 b.black.all
  if b.wtomove then
    let targets := shl64 b.white.pawns 8 &&& free
    let fourthFile : Nat := 0xFF000000
    (targets, shl64 targets 8 &&& fourthFile &&& free)
  else
    let targets := (b.black.pawns >>> 8) &&& free
    let fifthFile : Nat := 0xFF00000000
    (targets, (targets >>> 8) &&& fifthFile &&& free)

/-- Body of the single-push loop of `pawnPushes`: the moves emitted for
one extracted target square (four promotions on the far rank, one plain
move otherwise). -/
def pushBlock (wtomove : Bool) (oneRankBack : Int) (target : Nat) : List Move :=
  let m := ((Move.mk 0 0 0).Setfrom (intToSquare ((target : Int) + oneRankBack))).Setto target
  if canPromoteAt wtomove target then promoPieces.map (fun p => m.Setpromote p) else [m]

/-- Body of the double-push loop of `pawnPushes`. -/
def doubleBlock (oneRankBack : Int) (doubleTarget : Nat) : List Move :=
  [((Move.mk 0 0 0).Setfrom (intToSquare ((doubleTarget : Int) + 2 * oneRankBack))).Setto doubleTarget]

/-- `pawnPushes`: all single- and double-push pawn moves. -/
def pawnPushes (b : Board) : List Move :=
  let tp := pawnPushBitboards b
  let oneRankBack : Int := if b.wtomove then -8 else 8
  bitLoopFlat (pushBlock b.wtomove oneRankBack) tp.1 ++
    bitLoopFlat (doubleBlock oneRankBack) tp.2

/-- `pawnCaptureBitboards`: east and west diagonal capture target
bitboards, including the en-passant target square when active. -/
def pawnCaptureBitboards (b : Board) : Nat × Nat :=
  let notHFile : Nat := 0x7F7F7F7F7F7F7F7F
  let notAFile : Nat := 0xFEFEFEFEFEFEFEFE
  let targets0 : Nat := if b.enpassant > 0 then shl64 1 b.enpassant else 0
  if b.wtomove then
    let targets := targets0 ||| b.black.all
    let ourpawns := b.white.pawns
    (shl64 ourpawns 9 &&& notAFile &&& targets,
     shl64 ourpawns 7 &&& notHFile &&& targets)
  else
    let targets := targets0 ||| b.white.all
    let ourpawns := b.black.pawns
    ((ourpawns >>> 7) &&& notAFile &&& targets,
     (ourpawns >>> 9) &&& notHFile &&& targets)

/-- Body of the capture loop of `pawnCaptures` for direction index
`dir` (0 or 1): origin is recovered by reversing the diagonal shift
`9 - dir*2`, with the promotion fan-out on the far rank. -/
def captureBlock (wtomove : Bool) (dir : Nat) (target : Nat) : List Move :=
  let m0 := (Move.mk 0 0 0).Setto target
  let m1 :=
    if wtomove then m0.Setfrom (intToSquare ((target : Int) - (9 - (dir : Int) * 2)))
    else m0.Setfrom (intToSquare ((target : Int) + (9 - (dir : Int) * 2)))
  if canPromoteAt wtomove target then promoPieces.map (fun p => m1.Setpromote p) else [m1]

/-- `pawnCaptures`: all pawn capture moves (en passant included); the
two direction bitboards are swapped when black is to move. -/
def pawnCaptures (b : Board) : List Move :=
  let ew := pawnCaptureBitboards b
  let bbs := if b.wtomove then ew else (ew.2, ew.1)
  bitLoopFlat (captureBlock b.wtomove 0) bbs.1 ++
    bitLoopFlat (captureBlock b.wtomove 1) bbs.2

/-- `underDirectAttack`, with the board threaded through unchanged to
every `return` point (the Go function takes `*Board` and only reads it).
Checks, short-circuiting: knight attackers, diagonal sliders, orthogonal
sliders, adjacent king, then pawn attackers.  The pawn probes use plain
`uint8` square arithmetic: `origin + 7`/`origin + 9` for attacks by
black and `origin - 7`/`origin - 9` for attacks by white.  The Go source
guards the latter with `origin-7 >= 0` and `origin-9 >= 0`, which are
vacuously true for the unsigned `origin`; the subtraction wraps modulo
256 and a resulting shift count of 64 or more yields an empty mask. -/
def underDirectAttackSt (b : Board) (byBlack : Bool) (origin : Nat) : Option (Bool × Board) :=
  let allPieces := b.white.all ||| b.black.all
  let opponentPieces := if byBlack then b.black else b.white
  (knightMasks origin).bind fun kmask =>
  let knight_attackers := kmask &&& opponentPieces.knights
  if knight_attackers ≠ 0 then some (true, b) else
  (magicBishopAttacks origin allPieces).bind fun dmoves =>
  let diag_potential_attackers := dmoves &&& opponentPieces.all
  let diag_attackers := diag_potential_attackers &&& (opponentPieces.bishops ||| opponentPieces.queens)
  if diag_attackers ≠ 0 then some (true, b) else
  (magicRookAttacks origin allPieces).bind fun omoves =>
  let ortho_potential_attackers := omoves &&& opponentPieces.all
  let ortho_attackers := ortho_potential_attackers &&& (opponentPieces.rooks ||| opponentPieces.queens)
  if ortho_attackers ≠ 0 then some (true, b) else
  (kingMasks origin).bind fun kingmask =>
  let king_attackers := kingmask &&& opponentPieces.kings
  if king_attackers ≠ 0 then some (true, b) else
  let pawn_probes :=
    if byBlack then
      shl64 1 ((origin + 7) % 256) ||| shl64 1 ((origin + 9) % 256)
    else
      shl64 1 ((origin + 249) % 256) ||| shl64 1 ((origin + 247) % 256)
  let pawn_attackers := pawn_probes &&& opponentPieces.pawns
  if pawn_attackers ≠ 0 then some (true, b) else some (false, b)

/-- The result of `underDirectAttack` (the Boolean component). -/
def underDirectAttack (b : Board) (byBlack : Bool) (origin : Nat) : Option Bool :=
  (underDirectAttackSt b byBlack origin).map Prod.fst

/-- `anyUnderDirectAttack`, board threaded: true when any of the listed
squares is attacked, short-circuiting on the first hit. -/
def anyUnderDirectAttackSt (b : Board) (byBlack : Bool) (squares : List Nat) : Option (Bool × Board) :=
  match squares with
  | [] => some (false, b)
  | v :: rest =>
    (underDirectAttackSt b byBlack v).bind fun a =>
    if a.1 then some (true, a.2) else anyUnderDirectAttackSt a.2 byBlack rest

/-- The result of `anyUnderDirectAttack` (the Boolean component). -/
def anyUnderDirectAttack (b : Board) (byBlack : Bool) (squares : List Nat) : Option Bool :=
  (anyUnderDirectAttackSt b byBlack squares).map Prod.fst

/-- Body of the knight loop of `knightMoves`. -/
def knightBlock (noFriendlyPieces : Nat) (currentKnight : Nat) : Option (List Move) :=
  (knightMasks currentKnight).map fun mask =>
    genMovesFromTargets currentKnight (mask &&& noFriendlyPieces)

/-- `knightMoves`: moves of the mover's knights to squares free of
friendly pieces. -/
def knightMoves (b : Board) : Option (List Move) :=
  let p := if b.wtomove then (b.white.knights, compl64 b.white.all)
           else (b.black.knights, compl64 b.black.all)
  bitLoopFlatM (knightBlock p.2) p.1

/-- Body of the normal-king-move loop of `kingMoves`: the candidate
target is probed for opponent attack on the king-stripped board and
skipped when attacked. -/
def kingTargetBlock (bProbe : Board) (byBlack : Bool) (ourKingLocation : Nat) (target : Nat) :
    Option (List Move) :=
  (underDirectAttack bProbe byBlack target).map fun attacked =>
    if attacked then [] else [((Move.mk 0 0 0).Setfrom ourKingLocation).Setto target]

/-- `kingMoves`: castling moves plus normal king moves.  The source
computes `allPieces := b.white.all & b.black.all` (sic) and the clear
tests `allPieces&(1<<5)&(1<<6) == 0` etc. exactly as written here, then
temporarily removes the king from its side's king bitboard and aggregate
occupancy before probing each candidate square, restoring both at the
end.  The returned board is the board as left behind by the call. -/
def kingMoves (b : Board) : Option (Board × List Move) :=
  let allPieces := b.white.all &&& b.black.all
  let info : Option (Nat × Nat × Bool × Bool) :=
    if b.wtomove then
      let kingsideClear := allPieces &&& (1 <<< 5) &&& (1 <<< 6) == 0
      let queensideClear := allPieces &&& (1 <<< 3) &&& (1 <<< 2) &&& (1 <<< 1) == 0
      (if b.whiteCanCastleQueenside && queensideClear then
          (anyUnderDirectAttack b true [0, 1, 2, 3, 4]).map (fun a => !a)
        else some false).bind fun canCastleQueenside =>
      (if b.whiteCanCastleKingside && kingsideClear then
          (anyUnderDirectAttack b true [4, 5, 6, 7]).map (fun a => !a)
        else some false).bind fun canCastleKingside =>
      some (tz64 b.white.kings, compl64 b.white.all, canCastleQueenside, canCastleKingside)
    else
      let kingsideClear := allPieces &&& (1 <<< 61) &&& (1 <<< 62) == 0
      let queensideClear := allPieces &&& (1 <<< 57) &&& (1 <<< 58) &&& (1 <<< 59) == 0
      (if b.blackCanCastleQueenside && queensideClear then
          (anyUnderDirectAttack b false [56, 57, 58, 59, 60]).map (fun a => !a)
        else some false).bind fun canCastleQueenside =>
      (if b.blackCanCastleKingside && kingsideClear then
          (anyUnderDirectAttack b false [60, 61, 62, 63]).map (fun a => !a)
        else some false).bind fun canCastleKingside =>
      some (tz64 b.black.kings, compl64 b.black.all, canCastleQueenside, canCastleKingside)
  info.bind fun q =>
  let ourKingLocation := q.1
  let noFriendlyPieces := q.2.1
  let canCastleQueenside := q.2.2.1
  let canCastleKingside := q.2.2.2
  let castles :=
    (if canCastleKingside then
        [((Move.mk 0 0 0).Setfrom ourKingLocation).Setto ((ourKingLocation + 2) % 256)]
      else []) ++
    (if canCastleQueenside then
        [((Move.mk 0 0 0).Setfrom ourKingLocation).Setto ((ourKingLocation + 254) % 256)]
      else [])
  let oldKings := if b.wtomove then b.white.kings else b.black.kings
  let stripped : bitboards :=
    if b.wtomove then
      { b.white with kings := 0, all := b.white.all &&& compl64 (shl64 1 ourKingLocation) }
    else
      { b.black with kings := 0, all := b.black.all &&& compl64 (shl64 1 ourKingLocation) }
  let bProbe : Board := if b.wtomove then { b with white := stripped } else { b with black := stripped }
  (kingMasks ourKingLocation).bind fun kmask =>
  (bitLoopFlatM (kingTargetBlock bProbe b.wtomove ourKingLocation) (kmask &&& noFriendlyPieces)).bind
    fun normals =>
  let restored : bitboards :=
    { stripped with kings := oldKings, all := stripped.all ||| shl64 1 ourKingLocation }
  let bOut : Board := if b.wtomove then { b with white := restored } else { b with black := restored }
  some (bOut, castles ++ normals)

/-- Body of the rook loop of `rookMoves`: magic lookup filtered against
friendly occupancy. -/
def rookBlock (allPieces friendlyPieces : Nat) (currRook : Nat) : Option (List Move) :=
  (magicRookAttacks currRook allPieces).map fun mv =>
    genMovesFromTargets currRook (mv &&& compl64 friendlyPieces)

/-- `rookMoves`. -/
def rookMoves (b : Board) : Option (List Move) :=
  let p := if b.wtomove then (b.white.rooks, b.white.all) else (b.black.rooks, b.black.all)
  bitLoopFlatM (rookBlock (b.white.all ||| b.black.all) p.2) p.1

/-- Body of the bishop loop of `bishopMoves`. -/
def bishopBlock (allPieces friendlyPieces : Nat) (currBishop : Nat) : Option (List Move) :=
  (magicBishopAttacks currBishop allPieces).map fun mv =>
    genMovesFromTargets currBishop (mv &&& compl64 friendlyPieces)

/-- `bishopMoves`. -/
def bishopMoves (b : Board) : Option (List Move) :=
  let p := if b.wtomove then (b.white.bishops, b.white.all) else (b.black.bishops, b.black.all)
  bitLoopFlatM (bishopBlock (b.white.all ||| b.black.all) p.2) p.1

/-- Body of the queen loop of `queenMoves`: bishop motion first, then
rook motion. -/
def queenBlock (allPieces friendlyPieces : Nat) (currQueen : Nat) : Option (List Move) :=
  (magicBishopAttacks currQueen allPieces).bind fun dmoves =>
  (magicRookAttacks currQueen allPieces).bind fun omoves =>
  some (genMovesFromTargets currQueen (dmoves &&& compl64 friendlyPieces) ++
        genMovesFromTargets currQueen (omoves &&& compl64 friendlyPieces))

/-- `queenMoves`. -/
def queenMoves (b : Board) : Option (List Move) :=
  let p := if b.wtomove then (b.white.queens, b.white.all) else (b.black.queens, b.black.all)
  bitLoopFlatM (queenBlock (b.white.all ||| b.black.all) p.2) p.1

/-- `GenerateLegalMoves`: the top-level pseudo-legal move generator,
calling the seven per-piece-type generators in order and collecting
their moves; the board component is the board as left behind by the
call (only `kingMoves` touches it). -/
def GenerateLegalMoves (b : Board) : Option (Board × List Move) :=
  let m1 := pawnPushes b
  let m2 := pawnCaptures b
  (knightMoves b).bind fun m3 =>
  (kingMoves b).bind fun km =>
  (rookMoves km.1).bind fun m5 =>
  (bishopMoves km.1).bind fun m6 =>
  (queenMoves km.1).bind fun m7 =>
  some (km.1, m1 ++ m2 ++ m3 ++ km.2 ++ m5 ++ m6 ++ m7)

/-- All bitboard fields of a side are valid `uint64` values (always true
of the Go struct by typing). -/
@[reducible] def bitboards.inRange (s : bitboards) : Prop :=
  s.pawns < U64MOD ∧ s.knights < U64MOD ∧ s.bishops < U64MOD ∧ s.rooks < U64MOD ∧
    s.queens < U64MOD ∧ s.kings < U64MOD ∧ s.all < U64MOD

/-- All fields of a board are valid machine values (`uint64` bitboards,
`uint8` en-passant square) — the typing guarantee of the Go struct,
which even a malformed board satisfies. -/
@[reducible] def Board.fieldsValid (b : Board) : Prop :=
  b.white.inRange ∧ b.black.inRange ∧ b.enpassant < 256

/-- Well-formedness of one side's bitboard set, per the data-model
invariants: the aggregate mask equals the union of the six piece masks
and exactly one king bit is set. -/
@[reducible] def bitboards.wf (s : bitboards) : Prop :=
  s.inRange ∧
    s.all = s.pawns ||| s.knights ||| s.bishops ||| s.rooks ||| s.queens ||| s.kings ∧
    s.kings ≠ 0 ∧ s.kings &&& (s.kings - 1) = 0

/-- Well-formedness of a board, per the data-model invariants: both
sides well-formed, the two sides' occupancies disjoint and the
en-passant square a valid square index. -/
@[reducible] def Board.wf (b : Board) : Prop :=
  b.white.wf ∧ b.black.wf ∧ b.white.all &&& b.black.all = 0 ∧ b.enpassant < 64

/-- A destination square is on the far rank relative to the side to move
(rank 8 for white, rank 1 for black). -/
@[reducible] def farRank (wtomove : Bool) (t : Nat) : Prop :=
  (wtomove = true ∧ 56 ≤ t ∧ t ≤ 63) ∨ (wtomove = false ∧ t ≤ 7)

/-- Square `s` holds a true diagonal pawn attacker of `origin` for the
attacking side (black when `byBlack`): the two genuine diagonal-attack
offsets, with no wraparound across the A/H file boundary.  This is the
spec's wording of the pawn-attack relation, for comparison with what the
code computes. -/
@[reducible] def diagAttackOffsets (byBlack : Bool) (origin s : Nat) : Prop :=
  (byBlack = true ∧ ((s = origin + 7 ∧ s % 8 ≠ 7) ∨ (s = origin + 9 ∧ s % 8 ≠ 0))) ∨
    (byBlack = false ∧ ((s + 7 = origin ∧ s % 8 ≠ 0) ∨ (s + 9 = origin ∧ s % 8 ≠ 7)))

/-- The pawn-probe mask computed by `underDirectAttack` hits an opponent
pawn: some pawn stands on square `origin ± 7` or `origin ± 9` (plain
square arithmetic, no file masking), the direction depending on the
attacking side. -/
def codePawnProbeHit (byBlack : Bool) (pawns origin : Nat) : Prop :=
  ∃ s, s < 64 ∧ pawns.testBit s ∧
    ((byBlack = true ∧ (s = origin + 7 ∨ s = origin + 9)) ∨
      (byBlack = false ∧ (s + 7 = origin ∨ s + 9 = origin)))

/-- The standard chess starting position. -/
def startBoard : Board :=
  { white := { pawns := 0xFF00, knights := (1 <<< 1) ||| (1 <<< 6),
               bishops := (1 <<< 2) ||| (1 <<< 5), rooks := (1 <<< 0) ||| (1 <<< 7),
               queens := 1 <<< 3, kings := 1 <<< 4, all := 0xFFFF }
    black := { pawns := 0xFF000000000000,
               knights := (1 <<< 57) ||| (1 <<< 62),
               bishops := (1 <<< 58) ||| (1 <<< 61),
               rooks := (1 <<< 56) ||| (1 <<< 63),
               queens := 1 <<< 59, kings := 1 <<< 60, all := 0xFFFF000000000000 }
    wtomove := true, enpassant := 0,
    castleWK := true, castleWQ := true, castleBK := true, castleBQ := true }

/-- A well-formed board whose only black pawn stands on h2 (square 15):
h2 does not attack a2 (square 8) — the a2/h2 adjacency is a wraparound
across the A/H file boundary. -/
def cex3Board : Board :=
  { white := { pawns := 0, knights := 0, bishops := 0, rooks := 0, queens := 0,
               kings := 1 <<< 36, all := 1 <<< 36 }
    black := { pawns := 1 <<< 15, knights := 0, bishops := 0, rooks := 0, queens := 0,
               kings := 1 <<< 63, all := (1 <<< 15) ||| (1 <<< 63) }
    wtomove := true, enpassant := 0,
    castleWK := false, castleWQ := false, castleBK := false, castleBQ := false }

/-- A board with a black pawn on b3 (square 17), which genuinely attacks
a2 (square 8). -/
def w3Board : Board :=
  { white := { pawns := 0, knights := 0, bishops := 0, rooks := 0, queens := 0,
               kings := 1 <<< 36, all := 1 <<< 36 }
    black := { pawns := 1 <<< 17, knights := 0, bishops := 0, rooks := 0, queens := 0,
               kings := 1 <<< 63, all := (1 <<< 17) ||| (1 <<< 63) }
    wtomove := true, enpassant := 0,
    castleWK := false, castleWQ := false, castleBK := false, castleBQ := false }

/-- A malformed board (valid machine values, but zero white kings) with
white to move. -/
def noKingBoard : Board :=
  { white := { pawns := 0, knights := 0, bishops := 0, rooks := 0, queens := 0,
               kings := 0, all := 0 }
    black := { pawns := 0, knights := 0, bishops := 0, rooks := 0, queens := 0,
               kings := 1 <<< 60, all := 1 <<< 60 }
    wtomove := true, enpassant := 0,
    castleWK := false, castleWQ := false, castleBK := false, castleBQ := false }

/-- A position right after the black double push d7–d5 (black pawn on
d5, square 35) with a white pawn on e5 (square 36): the en-passant
target is d6 (square 43), an empty square. -/
def epBoard : Board :=
  { white := { pawns := 1 <<< 36, knights := 0, bishops := 0, rooks := 0, queens := 0,
               kings := 1 <<< 4, all := (1 <<< 36) ||| (1 <<< 4) }
    black := { pawns := 1 <<< 35, knights := 0, bishops := 0, rooks := 0, queens := 0,
               kings := 1 <<< 60, all := (1 <<< 35) ||| (1 <<< 60) }
    wtomove := true, enpassant := 43,
    castleWK := false, castleWQ := false, castleBK := false, castleBQ := false }

/-- A position with a white pawn on a7 (square 48), one step from
promotion. -/
def promoBoard : Board :=
  { white := { pawns := 1 <<< 48, knights := 0, bishops := 0, rooks := 0, queens := 0,
               kings := 1 <<< 4, all := (1 <<< 48) ||| (1 <<< 4) }
    black := { pawns := 0, knights := 0, bishops := 0, rooks := 0, queens := 0,
               kings := 1 <<< 60, all := 1 <<< 60 }
    wtomove := true, enpassant := 0,
    castleWK := false, castleWQ := false, castleBK := false, castleBQ := false }

/-! ### Bit-level helper lemmas -/

theorem shl64_lt (x n : Nat) : shl64 x n < U64MOD :=
  Nat.mod_lt _ (by decide)

theorem testBit_ge_false {x : Nat} (hx : x < U64MOD) {j : Nat} (hj : 64 ≤ j) :
    x.testBit j = false :=
  Nat.testBit_eq_false_of_lt (lt_of_lt_of_le hx (Nat.pow_le_pow_right (by decide) hj))

theorem testBit_lt_64 {x t : Nat} (hx : x < U64MOD) (h : x.testBit t = true) : t < 64 := by
  by_contra hc
  rw [testBit_ge_false hx (le_of_not_lt hc)] at h
  exact Bool.false_ne_true h

theorem lor_lt_u64 {x y : Nat} (hx : x < U64MOD) (hy : y < U64MOD) : x ||| y < U64MOD :=
  Nat.bitwise_lt_two_pow hx hy

theorem land_lt_u64 (x : Nat) {y : Nat} (hy : y < U64MOD) : x &&& y < U64MOD :=
  Nat.and_lt_two_pow x hy

theorem compl64_lt {x : Nat} (hx : x < U64MOD) : compl64 x < U64MOD :=
  Nat.xor_lt_two_pow (by decide) hx

theorem shl64_one (k : Nat) : shl64 1 k = if k < 64 then 2 ^ k else 0 := by
  unfold shl64 U64MOD
  rw [Nat.shiftLeft_eq, one_mul]
  split
  · exact Nat.mod_eq_of_lt (Nat.pow_lt_pow_right (by decide) ‹k < 64›)
  · exact Nat.mod_eq_zero_of_dvd (pow_dvd_pow 2 (le_of_not_lt ‹¬ k < 64›))

theorem testBit_shl64_one (k j : Nat) :
    (shl64 1 k).testBit j = (decide (k < 64) && decide (j = k)) := by
  rw [shl64_one]
  split
  · rw [Nat.testBit_two_pow]
    simp [eq_comm, *]
  · simp [Nat.zero_testBit, *]

theorem testBit_compl64 {x : Nat} (hx : x < U64MOD) (j : Nat) :
    (compl64 x).testBit j = (decide (j < 64) && !x.testBit j) := by
  unfold compl64
  rw [Nat.testBit_xor, show (0xFFFFFFFFFFFFFFFF : Nat) = 2 ^ 64 - 1 by norm_num,
    Nat.testBit_two_pow_sub_one]
  rcases lt_or_ge j 64 with h | h
  · simp [h]
  · simp [Nat.not_lt.2 h, testBit_ge_false hx h]

theorem tzAux_min : ∀ fuel x j, j < tzAux fuel x → x.testBit j = false := by
  intro fuel
  induction fuel with
  | zero => intro x j h; simp [tzAux] at h
  | succ fuel ih =>
    intro x j h
    unfold tzAux at h
    split at h
    · omega
    · cases j with
      | zero =>
        rw [Nat.testBit_zero]
        simpa using ‹¬ x % 2 = 1›
      | succ j =>
        rw [Nat.testBit_add_one]
        exact ih (x / 2) j (by omega)

theorem tzAux_hit : ∀ fuel x, x ≠ 0 → x < 2 ^ fuel → x.testBit (tzAux fuel x) = true := by
  intro fuel
  induction fuel with
  | zero => intro x hx hlt; omega
  | succ fuel ih =>
    intro x hx hlt
    unfold tzAux
    split
    · rw [Nat.testBit_zero]
      simpa using ‹x % 2 = 1›
    · rw [Nat.add_comm, Nat.testBit_add_one]
      refine ih (x / 2) (by omega) ?_
      rw [Nat.div_lt_iff_lt_mul (by decide)]
      calc x < 2 ^ (fuel + 1) := hlt
      _ = 2 ^ fuel * 2 := by rw [Nat.pow_succ]

theorem tz64_testBit {x : Nat} (hx : x ≠ 0) (hlt : x < U64MOD) :
    x.testBit (tz64 x) = true :=
  tzAux_hit 64 x hx hlt

theorem tz64_min {x j : Nat} (h : j < tz64 x) : x.testBit j = false :=
  tzAux_min 64 x j h

theorem tz64_lt {x : Nat} (hx : x ≠ 0) (hlt : x < U64MOD) : tz64 x < 64 := by
  by_contra h
  have h1 := tz64_testBit hx hlt
  rw [testBit_ge_false hlt (le_of_not_lt h)] at h1
  exact Bool.false_ne_true h1

theorem land_pred_le (x : Nat) : x &&& (x - 1) ≤ x := Nat.and_le_left

theorem land_pred_lt {x : Nat} (hx : x ≠ 0) : x &&& (x - 1) < x :=
  Nat.lt_of_le_of_lt Nat.and_le_right (Nat.sub_lt (Nat.pos_of_ne_zero hx) Nat.one_pos)

theorem testBit_land_pred {x : Nat} (hx : x ≠ 0) (hlt : x < U64MOD) (j : Nat) :
    (x &&& (x - 1)).testBit j = (x.testBit j && !(decide (j = tz64 x))) := by
  set t := tz64 x with ht
  have hmod : x % 2 ^ t = 0 := by
    apply Nat.eq_of_testBit_eq
    intro i
    rw [Nat.testBit_mod_two_pow, Nat.zero_testBit]
    rcases lt_or_ge i t with hi | hi
    · simp [tz64_min (ht ▸ hi)]
    · simp [Nat.not_lt.2 hi]
  obtain ⟨m, hm⟩ : 2 ^ t ∣ x := Nat.dvd_of_mod_eq_zero hmod
  have hpow : 0 < 2 ^ t := Nat.pos_pow_of_pos t (by decide)
  have hm0 : m ≠ 0 := by
    rintro rfl
    rw [Nat.mul_zero] at hm
    exact hx hm
  have hxt : x.testBit t = true := tz64_testBit hx hlt
  have hxbit : ∀ j, x.testBit j = if j < t then false else m.testBit (j - t) := by
    intro j
    conv_lhs => rw [show x = 2 ^ t * m + 0 by rw [Nat.add_zero]; exact hm]
    rw [Nat.testBit_mul_pow_two_add m hpow j]
    split
    · exact Nat.zero_testBit j
    · rfl
  have hmodd : m % 2 = 1 := by
    have h2 : m.testBit 0 = true := by
      have := hxbit t
      rw [hxt] at this
      simpa using this.symm
    rw [Nat.testBit_zero] at h2
    simpa using h2
  obtain ⟨m', rfl⟩ : ∃ m'', m = m'' + 1 := ⟨m - 1, by omega⟩
  have hm'even : m' % 2 = 0 := by omega
  have hx1 : x - 1 = 2 ^ t * m' + (2 ^ t - 1) := by
    rw [hm, Nat.mul_add, Nat.mul_one]
    omega
  have hx1bit : ∀ j, (x - 1).testBit j = if j < t then true else m'.testBit (j - t) := by
    intro j
    rw [hx1, Nat.testBit_mul_pow_two_add m' (by omega) j]
    split
    next hcase =>
      rw [Nat.testBit_two_pow_sub_one]
      exact decide_eq_true hcase
    next hcase => rfl
  rw [Nat.testBit_land, hxbit j, hx1bit j]
  rcases Nat.lt_trichotomy j t with hj | hj | hj
  · simp [hj]
  · subst hj
    have h1 : (m' + 1).testBit 0 = true := by
      rw [Nat.testBit_zero]
      simp [Nat.add_mod, hm'even]
    have h2 : m'.testBit 0 = false := by
      rw [Nat.testBit_zero]
      simp [hm'even]
    simp [h1, h2]
  · have hjt : ¬ j < t := by omega
    have hne : ¬ (j = t) := by omega
    obtain ⟨k, hk⟩ : ∃ k, j - t = k + 1 := ⟨j - t - 1, by omega⟩
    rw [if_neg hjt, if_neg hjt, hk, Nat.testBit_add_one, Nat.testBit_add_one,
      show (m' + 1) / 2 = m' / 2 by omega]
    simp [hne]

theorem ne_zero_iff_testBit {x : Nat} : x ≠ 0 ↔ ∃ i, x.testBit i = true := by
  constructor
  · intro hx
    by_contra h
    push_neg at h
    apply hx
    apply Nat.eq_of_testBit_eq
    intro i
    rw [Nat.zero_testBit]
    exact Bool.eq_false_iff.2 (h i)
  · rintro ⟨i, hi⟩ rfl
    rw [Nat.zero_testBit] at hi
    exact Bool.false_ne_true hi

/-! ### Extraction-loop lemmas -/

theorem bitLoopFlatAux_congr (blockOf : Nat → List Move) :
    ∀ fuel₁ fuel₂ x, x ≤ fuel₁ → x ≤ fuel₂ →
      bitLoopFlatAux blockOf fuel₁ x = bitLoopFlatAux blockOf fuel₂ x := by
  intro fuel₁
  induction fuel₁ with
  | zero =>
    intro fuel₂ x h1 h2
    have hx : x = 0 := Nat.le_zero.1 h1
    subst hx
    cases fuel₂ <;> simp [bitLoopFlatAux]
  | succ fuel₁ ih =>
    intro fuel₂ x h1 h2
    cases fuel₂ with
    | zero =>
      have hx : x = 0 := Nat.le_zero.1 h2
      subst hx
      simp [bitLoopFlatAux]
    | succ fuel₂ =>
      by_cases hx : x = 0
      · simp [bitLoopFlatAux, hx]
      · have hlt := land_pred_lt hx
        simp only [bitLoopFlatAux, if_neg hx]
        rw [ih fuel₂ (x &&& (x - 1)) (by omega) (by omega)]

theorem bitLoopFlat_zero (blockOf : Nat → List Move) : bitLoopFlat blockOf 0 = [] := rfl

theorem bitLoopFlat_cons (blockOf : Nat → List Move) {x : Nat} (hx : x ≠ 0) :
    bitLoopFlat blockOf x = blockOf (tz64 x) ++ bitLoopFlat blockOf (x &&& (x - 1)) := by
  unfold bitLoopFlat
  obtain ⟨n, rfl⟩ : ∃ n, x = n + 1 := ⟨x - 1, by omega⟩
  rw [show bitLoopFlatAux blockOf (n + 1) (n + 1) =
      blockOf (tz64 (n + 1)) ++ bitLoopFlatAux blockOf n ((n + 1) &&& (n + 1 - 1)) by
    simp [bitLoopFlatAux]]
  have hle := land_pred_lt hx
  rw [bitLoopFlatAux_congr blockOf n ((n + 1) &&& (n + 1 - 1)) ((n + 1) &&& (n + 1 - 1))
    (by omega) (le_refl _)]

theorem bitLoopFlatMAux_congr (blockOf : Nat → Option (List Move)) :
    ∀ fuel₁ fuel₂ x, x ≤ fuel₁ → x ≤ fuel₂ →
      bitLoopFlatMAux blockOf fuel₁ x = bitLoopFlatMAux blockOf fuel₂ x := by
  intro fuel₁
  induction fuel₁ with
  | zero =>
    intro fuel₂ x h1 h2
    have hx : x = 0 := Nat.le_zero.1 h1
    subst hx
    cases fuel₂ <;> simp [bitLoopFlatMAux]
  | succ fuel₁ ih =>
    intro fuel₂ x h1 h2
    cases fuel₂ with
    | zero =>
      have hx : x = 0 := Nat.le_zero.1 h2
      subst hx
      simp [bitLoopFlatMAux]
    | succ fuel₂ =>
      by_cases hx : x = 0
      · simp [bitLoopFlatMAux, hx]
      · have hlt := land_pred_lt hx
        simp only [bitLoopFlatMAux, if_neg hx]
        rw [ih fuel₂ (x &&& (x - 1)) (by omega) (by omega)]

theorem bitLoopFlatM_zero (blockOf : Nat → Option (List Move)) :
    bitLoopFlatM blockOf 0 = some [] := rfl

theorem bitLoopFlatM_cons (blockOf : Nat → Option (List Move)) {x : Nat} (hx : x ≠ 0) :
    bitLoopFlatM blockOf x =
      (blockOf (tz64 x)).bind fun blk =>
      (bitLoopFlatM blockOf (x &&& (x - 1))).bind fun rest =>
      some (blk ++ rest) := by
  unfold bitLoopFlatM
  obtain ⟨n, rfl⟩ : ∃ n, x = n + 1 := ⟨x - 1, by omega⟩
  rw [show bitLoopFlatMAux blockOf (n + 1) (n + 1) =
      (blockOf (tz64 (n + 1))).bind fun blk =>
      (bitLoopFlatMAux blockOf n ((n + 1) &&& (n + 1 - 1))).bind fun rest =>
      some (blk ++ rest) by
    simp [bitLoopFlatMAux]]
  have hle := land_pred_lt hx
  rw [bitLoopFlatMAux_congr blockOf n ((n + 1) &&& (n + 1 - 1)) ((n + 1) &&& (n + 1 - 1))
    (by omega) (le_refl _)]

theorem mem_bitLoopFlat {blockOf : Nat → List Move} {m : Move} :
    ∀ x, x < U64MOD →
      (m ∈ bitLoopFlat blockOf x ↔ ∃ t, x.testBit t = true ∧ m ∈ blockOf t) := by
  intro x
  induction x using Nat.strong_induction_on with
  | _ x ih =>
    intro hlt
    by_cases hx : x = 0
    · subst hx
      simp [bitLoopFlat_zero, Nat.zero_testBit]
    · rw [bitLoopFlat_cons blockOf hx, List.mem_append,
        ih (x &&& (x - 1)) (land_pred_lt hx) (lt_of_le_of_lt (land_pred_le x) hlt)]
      constructor
      · rintro (h | ⟨t, ht, hm⟩)
        · exact ⟨tz64 x, tz64_testBit hx hlt, h⟩
        · refine ⟨t, ?_, hm⟩
          rw [testBit_land_pred hx hlt t, Bool.and_eq_true] at ht
          exact ht.1
      · rintro ⟨t, ht, hm⟩
        by_cases htz : t = tz64 x
        · subst htz
          exact Or.inl hm
        · refine Or.inr ⟨t, ?_, hm⟩
          rw [testBit_land_pred hx hlt t, ht]
          simp [htz]

theorem filter_bitLoopFlat {blockOf : Nat → List Move} (F : Nat → Nat)
    (hb : ∀ u m, m ∈ blockOf u → m.fromSq = F u ∧ m.toSq = u) :
    ∀ x, x < U64MOD → ∀ f t,
      (bitLoopFlat blockOf x).filter (fun m => m.fromSq == f && m.toSq == t) =
        if x.testBit t = true ∧ f = F t then blockOf t else [] := by
  intro x
  induction x using Nat.strong_induction_on with
  | _ x ih =>
    intro hlt f t
    by_cases hx : x = 0
    · subst hx
      simp [bitLoopFlat_zero, Nat.zero_testBit]
    · rw [bitLoopFlat_cons blockOf hx, List.filter_append,
        ih (x &&& (x - 1)) (land_pred_lt hx) (lt_of_le_of_lt (land_pred_le x) hlt) f t]
      have hnotz : (x &&& (x - 1)).testBit (tz64 x) = false := by
        rw [testBit_land_pred hx hlt (tz64 x)]
        simp
      by_cases htz : t = tz64 x
      · subst htz
        rw [if_neg (by rw [hnotz]; rintro ⟨h, -⟩; exact Bool.false_ne_true h)]
        by_cases hf : f = F (tz64 x)
        · have h1 : (blockOf (tz64 x)).filter
              (fun m => m.fromSq == f && m.toSq == tz64 x) = blockOf (tz64 x) := by
            rw [List.filter_eq_self]
            intro a ha
            obtain ⟨haf, hat⟩ := hb (tz64 x) a ha
            rw [haf, hat, hf]
            simp
          rw [h1, List.append_nil, if_pos ⟨tz64_testBit hx hlt, hf⟩]
        · have h1 : (blockOf (tz64 x)).filter
              (fun m => m.fromSq == f && m.toSq == tz64 x) = [] := by
            rw [List.filter_eq_nil_iff]
            intro a ha
            obtain ⟨haf, hat⟩ := hb (tz64 x) a ha
            rw [haf, hat]
            simp
            intro h
            exact absurd h.symm hf
          rw [h1, List.nil_append, if_neg (by rintro ⟨-, h⟩; exact hf h)]
      · have h1 : (blockOf (tz64 x)).filter (fun m => m.fromSq == f && m.toSq == t) = [] := by
          rw [List.filter_eq_nil_iff]
          intro a ha
          obtain ⟨haf, hat⟩ := hb (tz64 x) a ha
          rw [haf, hat]
          simp only [Bool.and_eq_true, beq_iff_eq, not_and]
          intro _ he
          exact htz he.symm
        have h2 : (x &&& (x - 1)).testBit t = x.testBit t := by
          rw [testBit_land_pred hx hlt t]
          simp [htz]
        rw [h1, List.nil_append, h2]

/-! ### Attack-oracle lemmas -/

theorem underDirectAttackSt_eq (b : Board) (byBlack : Bool) {origin : Nat} (ho : origin < 64) :
    ∃ r, underDirectAttackSt b byBlack origin = some (r, b) := by
  unfold underDirectAttackSt knightMasks magicBishopAttacks magicRookAttacks kingMasks
  simp only [if_pos ho, Option.some_bind]
  repeat' split
  all_goals exact ⟨_, rfl⟩

theorem underDirectAttackSt_none (b : Board) (byBlack : Bool) {origin : Nat}
    (ho : ¬ origin < 64) : underDirectAttackSt b byBlack origin = none := by
  unfold underDirectAttackSt knightMasks
  simp [if_neg ho]

theorem underDirectAttackSt_snd (b : Board) (byBlack : Bool) (origin : Nat) :
    ∀ r b', underDirectAttackSt b byBlack origin = some (r, b') → b' = b := by
  intro r b' h
  by_cases ho : origin < 64
  · obtain ⟨r0, h0⟩ := underDirectAttackSt_eq b byBlack ho
    rw [h0] at h
    cases h
    rfl
  · rw [underDirectAttackSt_none b byBlack ho] at h
    cases h

theorem underDirectAttack_isSome (b : Board) (byBlack : Bool) {origin : Nat} (ho : origin < 64) :
    (underDirectAttack b byBlack origin).isSome = true := by
  obtain ⟨r, hr⟩ := underDirectAttackSt_eq b byBlack ho
  unfold underDirectAttack
  rw [hr]
  rfl

theorem anyUnderDirectAttackSt_eq (byBlack : Bool) :
    ∀ (squares : List Nat) (b : Board), (∀ v ∈ squares, v < 64) →
      ∃ r, anyUnderDirectAttackSt b byBlack squares = some (r, b) := by
  intro squares
  induction squares with
  | nil => exact fun b _ => ⟨false, rfl⟩
  | cons v rest ih =>
    intro b hv
    obtain ⟨r, hr⟩ := underDirectAttackSt_eq b byBlack (hv v (List.mem_cons_self v rest))
    unfold anyUnderDirectAttackSt
    rw [hr, Option.some_bind]
    by_cases hr1 : r = true
    · exact ⟨true, by simp [hr1]⟩
    · obtain ⟨r2, hr2⟩ := ih b (fun u hu => hv u (List.mem_cons_of_mem v hu))
      exact ⟨r2, by simp [hr1, hr2]⟩

theorem anyUnderDirectAttackSt_snd (byBlack : Bool) :
    ∀ (squares : List Nat) (b : Board) (r : Bool) (b' : Board),
      anyUnderDirectAttackSt b byBlack squares = some (r, b') → b' = b := by
  intro squares
  induction squares with
  | nil =>
    intro b r b' h
    cases h
    rfl
  | cons v rest ih =>
    intro b r b' h
    unfold anyUnderDirectAttackSt at h
    rcases hu : underDirectAttackSt b byBlack v with _ | a
    · rw [hu] at h
      cases h
    · rw [hu, Option.some_bind] at h
      have hab : a.2 = b := underDirectAttackSt_snd b byBlack v a.1 a.2 (by rw [hu])
      split at h
      · cases h
        exact hab
      · exact (ih a.2 r b' h).trans hab

theorem anyUnderDirectAttack_isSome (b : Board) (byBlack : Bool) {squares : List Nat}
    (hv : ∀ v ∈ squares, v < 64) :
    (anyUnderDirectAttack b byBlack squares).isSome = true := by
  obtain ⟨r, hr⟩ := anyUnderDirectAttackSt_eq byBlack squares b hv
  unfold anyUnderDirectAttack
  rw [hr]
  rfl

/-! ### King-restoration lemma -/

theorem restore_all {a : Nat} (ha : a < U64MOD) {i : Nat} (hi : i < 64)
    (hbit : a.testBit i = true) :
    (a &&& compl64 (shl64 1 i)) ||| shl64 1 i = a := by
  apply Nat.eq_of_testBit_eq
  intro j
  rw [Nat.testBit_lor, Nat.testBit_land, testBit_compl64 (shl64_lt 1 i) j, testBit_shl64_one]
  by_cases hj : j = i
  · subst hj
    simp [hi, hbit]
  · rcases lt_or_ge j 64 with h64 | h64
    · simp [hj, h64]
    · simp [hj, testBit_ge_false ha h64, Nat.not_lt.2 h64]

theorem kingMoves_some_fst {b : Board} (hwf : b.wf) {p : Board × List Move}
    (h : kingMoves b = some p) : p.1 = b := by
  obtain ⟨⟨wp, wn, wbi, wr, wq, wk, wa⟩, ⟨bp, bn, bbi, br, bq, bk, ba⟩,
    wt, ep, c1, c2, c3, c4⟩ := b
  obtain ⟨hwwf, hbwf, -, -⟩ := hwf
  have hwk0 : wk ≠ 0 := hwwf.2.2.1
  have hwklt : wk < U64MOD := hwwf.1.2.2.2.2.2.1
  have hwalt : wa < U64MOD := hwwf.1.2.2.2.2.2.2
  have hbk0 : bk ≠ 0 := hbwf.2.2.1
  have hbklt : bk < U64MOD := hbwf.1.2.2.2.2.2.1
  have hbalt : ba < U64MOD := hbwf.1.2.2.2.2.2.2
  cases wt with
  | true =>
    simp only [kingMoves, if_true, Option.bind_eq_some, Option.some.injEq] at h
    obtain ⟨q, hq, kmask, hkm, normals, hn, hfin⟩ := h
    obtain ⟨ccq, -, cck, -, hqv⟩ := hq
    have hq1 : q.1 = tz64 wk := by rw [← hqv]
    subst hfin
    have hloc : tz64 wk < 64 := tz64_lt hwk0 hwklt
    have hbit : wa.testBit (tz64 wk) = true := by
      have heq : wa = wp ||| wn ||| wbi ||| wr ||| wq ||| wk := hwwf.2.1
      rw [heq, Nat.testBit_lor, tz64_testBit hwk0 hwklt]
      simp
    simp only [hq1]
    have hrest := restore_all hwalt hloc hbit
    simp only [hrest]
  | false =>
    simp only [kingMoves, if_false, Bool.false_eq_true, Option.bind_eq_some,
      Option.some.injEq] at h
    obtain ⟨q, hq, kmask, hkm, normals, hn, hfin⟩ := h
    obtain ⟨ccq, -, cck, -, hqv⟩ := hq
    have hq1 : q.1 = tz64 bk := by rw [← hqv]
    subst hfin
    have hloc : tz64 bk < 64 := tz64_lt hbk0 hbklt
    have hbit : ba.testBit (tz64 bk) = true := by
      have heq : ba = bp ||| bn ||| bbi ||| br ||| bq ||| bk := hbwf.2.1
      rw [heq, Nat.testBit_lor, tz64_testBit hbk0 hbklt]
      simp
    simp only [hq1]
    have hrest := restore_all hbalt hloc hbit
    simp only [hrest]

theorem generateLegalMoves_some_fst {b : Board} (hwf : b.wf) {p : Board × List Move}
    (h : GenerateLegalMoves b = some p) : p.1 = b := by
  simp only [GenerateLegalMoves, Option.bind_eq_some, Option.some.injEq] at h
  obtain ⟨m3, -, km, hkm, m5, -, m6, -, m7, -, hfin⟩ := h
  have h1 := kingMoves_some_fst hwf hkm
  rw [← hfin]
  exact h1

theorem bitLoopFlatM_isSome {blockOf : Nat → Option (List Move)} :
    ∀ x, x < U64MOD → (∀ t, x.testBit t = true → (blockOf t).isSome = true) →
      (bitLoopFlatM blockOf x).isSome = true := by
  intro x
  induction x using Nat.strong_induction_on with
  | _ x ih =>
    intro hlt hblk
    by_cases hx : x = 0
    · subst hx
      rfl
    · rw [bitLoopFlatM_cons blockOf hx]
      obtain ⟨blk, hb⟩ := Option.isSome_iff_exists.mp (hblk (tz64 x) (tz64_testBit hx hlt))
      have hrec : (bitLoopFlatM blockOf (x &&& (x - 1))).isSome = true := by
        refine ih (x &&& (x - 1)) (land_pred_lt hx)
          (lt_of_le_of_lt (land_pred_le x) hlt) (fun t ht => hblk t ?_)
        rw [testBit_land_pred hx hlt t, Bool.and_eq_true] at ht
        exact ht.1
      obtain ⟨rest, hr⟩ := Option.isSome_iff_exists.mp hrec
      rw [hb, hr, Option.some_bind, Option.some_bind]
      rfl

theorem knightMoves_isSome {b : Board} (hfv : b.fieldsValid) :
    (knightMoves b).isSome = true := by
  have hkn : (if b.wtomove = true then b.white.knights else b.black.knights) < U64MOD := by
    split
    · exact hfv.1.2.1
    · exact hfv.2.1.2.1
  unfold knightMoves
  cases hw : b.wtomove with
  | true =>
    rw [hw] at hkn
    refine bitLoopFlatM_isSome _ (by simpa using hkn) (fun t ht => ?_)
    have htlt : t < 64 := testBit_lt_64 (by simpa using hkn) ht
    unfold knightBlock knightMasks
    rw [if_pos htlt]
    rfl
  | false =>
    rw [hw] at hkn
    refine bitLoopFlatM_isSome _ (by simpa using hkn) (fun t ht => ?_)
    have htlt : t < 64 := testBit_lt_64 (by simpa using hkn) ht
    unfold knightBlock knightMasks
    rw [if_pos htlt]
    rfl

theorem rookMoves_isSome {b : Board} (hfv : b.fieldsValid) :
    (rookMoves b).isSome = true := by
  have hr : (if b.wtomove = true then b.white.rooks else b.black.rooks) < U64MOD := by
    split
    · exact hfv.1.2.2.2.1
    · exact hfv.2.1.2.2.2.1
  unfold rookMoves
  cases hw : b.wtomove with
  | true =>
    rw [hw] at hr
    refine bitLoopFlatM_isSome _ (by simpa using hr) (fun t ht => ?_)
    have htlt : t < 64 := testBit_lt_64 (by simpa using hr) ht
    unfold rookBlock magicRookAttacks
    rw [if_pos htlt]
    rfl
  | false =>
    rw [hw] at hr
    refine bitLoopFlatM_isSome _ (by simpa using hr) (fun t ht => ?_)
    have htlt : t < 64 := testBit_lt_64 (by simpa using hr) ht
    unfold rookBlock magicRookAttacks
    rw [if_pos htlt]
    rfl

theorem bishopMoves_isSome {b : Board} (hfv : b.fieldsValid) :
    (bishopMoves b).isSome = true := by
  have hr : (if b.wtomove = true then b.white.bishops else b.black.bishops) < U64MOD := by
    split
    · exact hfv.1.2.2.1
    · exact hfv.2.1.2.2.1
  unfold bishopMoves
  cases hw : b.wtomove with
  | true =>
    rw [hw] at hr
    refine bitLoopFlatM_isSome _ (by simpa using hr) (fun t ht => ?_)
    have htlt : t < 64 := testBit_lt_64 (by simpa using hr) ht
    unfold bishopBlock magicBishopAttacks
    rw [if_pos htlt]
    rfl
  | false =>
    rw [hw] at hr
    refine bitLoopFlatM_isSome _ (by simpa using hr) (fun t ht => ?_)
    have htlt : t < 64 := testBit_lt_64 (by simpa using hr) ht
    unfold bishopBlock magicBishopAttacks
    rw [if_pos htlt]
    rfl

theorem queenMoves_isSome {b : Board} (hfv : b.fieldsValid) :
    (queenMoves b).isSome = true := by
  have hr : (if b.wtomove = true then b.white.queens else b.black.queens) < U64MOD := by
    split
    · exact hfv.1.2.2.2.2.1
    · exact hfv.2.1.2.2.2.2.1
  unfold queenMoves
  cases hw : b.wtomove with
  | true =>
    rw [hw] at hr
    refine bitLoopFlatM_isSome _ (by simpa using hr) (fun t ht => ?_)
    have htlt : t < 64 := testBit_lt_64 (by simpa using hr) ht
    unfold queenBlock magicBishopAttacks magicRookAttacks
    rw [if_pos htlt, if_pos htlt, Option.some_bind, Option.some_bind]
    rfl
  | false =>
    rw [hw] at hr
    refine bitLoopFlatM_isSome _ (by simpa using hr) (fun t ht => ?_)
    have htlt : t < 64 := testBit_lt_64 (by simpa using hr) ht
    unfold queenBlock magicBishopAttacks magicRookAttacks
    rw [if_pos htlt, if_pos htlt, Option.some_bind, Option.some_bind]
    rfl

theorem castle_opt_isSome (cond : Bool) (b : Board) (byBlack : Bool) (squares : List Nat)
    (hsq : ∀ v ∈ squares, v < 64) :
    (if cond = true then (anyUnderDirectAttack b byBlack squares).map (fun a => !a)
      else some false).isSome = true := by
  split
  · obtain ⟨r, hr⟩ := Option.isSome_iff_exists.mp (anyUnderDirectAttack_isSome b byBlack hsq)
    rw [hr]
    rfl
  · rfl

theorem kingTargetBlock_isSome (bProbe : Board) (byBlack : Bool) (loc : Nat) {t : Nat}
    (ht : t < 64) : (kingTargetBlock bProbe byBlack loc t).isSome = true := by
  unfold kingTargetBlock
  obtain ⟨r, hr⟩ := Option.isSome_iff_exists.mp (underDirectAttack_isSome bProbe byBlack ht)
  rw [hr]
  rfl

theorem bind_some_isSome {A B : Type} (x : Option A) (f : A → Option B)
    (hx : x.isSome = true) (hf : ∀ a, (f a).isSome = true) : (x.bind f).isSome = true := by
  obtain ⟨a, ha⟩ := Option.isSome_iff_exists.mp hx
  rw [ha, Option.some_bind]
  exact hf a

theorem kingLoop_isSome (bProbe : Board) (byBlack : Bool) (loc : Nat) (targets : Nat)
    (htl : targets < U64MOD) :
    (bitLoopFlatM (kingTargetBlock bProbe byBlack loc) targets).isSome = true :=
  bitLoopFlatM_isSome targets htl
    (fun _t ht => kingTargetBlock_isSome bProbe byBlack loc (testBit_lt_64 htl ht))

theorem kingMoves_isSome {b : Board} (hfv : b.fieldsValid)
    (hk : (if b.wtomove = true then b.white.kings else b.black.kings) ≠ 0) :
    (kingMoves b).isSome = true := by
  obtain ⟨⟨wp, wn, wbi, wr, wq, wk, wa⟩, ⟨bp, bn, bbi, br, bq, bk, ba⟩,
    wt, ep, c1, c2, c3, c4⟩ := b
  obtain ⟨hwin, hbin, hep⟩ := hfv
  cases wt with
  | true =>
    have hk' : wk ≠ 0 := by simpa using hk
    have hklt : wk < U64MOD := hwin.2.2.2.2.2.1
    have halt : wa < U64MOD := hwin.2.2.2.2.2.2
    have hloc : tz64 wk < 64 := tz64_lt hk' hklt
    unfold kingMoves
    simp only [eq_self_iff_true, if_true]
    obtain ⟨ccq, hccq⟩ := Option.isSome_iff_exists.mp
      (castle_opt_isSome _ _ true [0, 1, 2, 3, 4] (by simp))
    obtain ⟨cck, hcck⟩ := Option.isSome_iff_exists.mp
      (castle_opt_isSome _ _ true [4, 5, 6, 7] (by simp))
    rw [hccq, Option.some_bind, hcck, Option.some_bind, Option.some_bind]
    unfold kingMasks
    rw [if_pos hloc, Option.some_bind]
    exact bind_some_isSome _ _
      (kingLoop_isSome _ true _ _ (land_lt_u64 _ (compl64_lt halt))) (fun a => rfl)
  | false =>
    have hk' : bk ≠ 0 := by simpa using hk
    have hklt : bk < U64MOD := hbin.2.2.2.2.2.1
    have halt : ba < U64MOD := hbin.2.2.2.2.2.2
    have hloc : tz64 bk < 64 := tz64_lt hk' hklt
    unfold kingMoves
    simp only [Bool.false_eq_true, if_false]
    obtain ⟨ccq, hccq⟩ := Option.isSome_iff_exists.mp
      (castle_opt_isSome _ _ false [56, 57, 58, 59, 60] (by simp))
    obtain ⟨cck, hcck⟩ := Option.isSome_iff_exists.mp
      (castle_opt_isSome _ _ false [60, 61, 62, 63] (by simp))
    rw [hccq, Option.some_bind, hcck, Option.some_bind, Option.some_bind]
    unfold kingMasks
    rw [if_pos hloc, Option.some_bind]
    exact bind_some_isSome _ _
      (kingLoop_isSome _ false _ _ (land_lt_u64 _ (compl64_lt halt))) (fun a => rfl)

theorem kingMoves_some_fieldsValid {b : Board} (hfv : b.fieldsValid) {p : Board × List Move}
    (h : kingMoves b = some p) : p.1.fieldsValid := by
  obtain ⟨⟨wp, wn, wbi, wr, wq, wk, wa⟩, ⟨bp, bn, bbi, br, bq, bk, ba⟩,
    wt, ep, c1, c2, c3, c4⟩ := b
  obtain ⟨hwin, hbin, hep⟩ := hfv
  cases wt with
  | true =>
    simp only [kingMoves, if_true, Option.bind_eq_some, Option.some.injEq] at h
    obtain ⟨q, hq, kmask, hkm, normals, hn, hfin⟩ := h
    subst hfin
    refine ⟨⟨hwin.1, hwin.2.1, hwin.2.2.1, hwin.2.2.2.1, hwin.2.2.2.2.1,
      hwin.2.2.2.2.2.1, ?_⟩, hbin, hep⟩
    exact lor_lt_u64 (land_lt_u64 _ (compl64_lt (shl64_lt 1 _))) (shl64_lt 1 _)
  | false =>
    simp only [kingMoves, if_false, Bool.false_eq_true, Option.bind_eq_some,
      Option.some.injEq] at h
    obtain ⟨q, hq, kmask, hkm, normals, hn, hfin⟩ := h
    subst hfin
    refine ⟨hwin, ⟨hbin.1, hbin.2.1, hbin.2.2.1, hbin.2.2.2.1, hbin.2.2.2.2.1,
      hbin.2.2.2.2.2.1, ?_⟩, hep⟩
    exact lor_lt_u64 (land_lt_u64 _ (compl64_lt (shl64_lt 1 _))) (shl64_lt 1 _)

/-- C4 (amended): for every board whose fields are valid machine values
(`uint64` bitboards, `uint8` en-passant square) and in which the side to
move has at least one king bit, `GenerateLegalMoves` runs to completion
and returns a move sequence — no out-of-range table index is reached. -/
theorem generateLegalMoves_total_with_king (b : Board) (hfv : b.fieldsValid)
    (hk : (if b.wtomove = true then b.white.kings else b.black.kings) ≠ 0) :
    (GenerateLegalMoves b).isSome = true := by
  unfold GenerateLegalMoves
  obtain ⟨m3, h3⟩ := Option.isSome_iff_exists.mp (knightMoves_isSome hfv)
  rw [h3, Option.some_bind]
  obtain ⟨km, hkm⟩ := Option.isSome_iff_exists.mp (kingMoves_isSome hfv hk)
  rw [hkm, Option.some_bind]
  have hfv2 : km.1.fieldsValid := kingMoves_some_fieldsValid hfv hkm
  obtain ⟨m5, h5⟩ := Option.isSome_iff_exists.mp (rookMoves_isSome hfv2)
  rw [h5, Option.some_bind]
  obtain ⟨m6, h6⟩ := Option.isSome_iff_exists.mp (bishopMoves_isSome hfv2)
  rw [h6, Option.some_bind]
  obtain ⟨m7, h7⟩ := Option.isSome_iff_exists.mp (queenMoves_isSome hfv2)
  rw [h7, Option.some_bind]
  rfl

/-- Witness for C4 (amended) at the standard starting position. -/
theorem generateLegalMoves_total_with_king_witness :
    startBoard.fieldsValid ∧ (GenerateLegalMoves startBoard).isSome = true :=
  ⟨by decide, generateLegalMoves_total_with_king startBoard (by decide) (by decide)⟩

/-- C5: for every well-formed board, `GenerateLegalMoves` leaves the
entire board state unchanged: the king generator's temporary removal of
the mover's king from the king bitboard and the side's aggregate
occupancy is fully restored before returning, so the board component of
the result equals the input board. -/
theorem generateLegalMoves_preserves_board (b : Board) (p : Board × List Move)
    (hwf : b.wf) (h : GenerateLegalMoves b = some p) : p.1 = b :=
  generateLegalMoves_some_fst hwf h

/-- Witness for C5 at the standard starting position. -/
theorem generateLegalMoves_preserves_board_witness :
    startBoard.wf ∧ (GenerateLegalMoves startBoard).map Prod.fst = some startBoard := by
  refine ⟨by decide, ?_⟩
  cases h : GenerateLegalMoves startBoard with
  | none => exact absurd h (by decide)
  | some p =>
    simp [generateLegalMoves_preserves_board startBoard p (by decide) h]

/-- C9: the generator is deterministic and restores the board, so
calling it again on the board left behind by a successful call produces
exactly the same result — in particular the two move sequences are
identical. -/
theorem generateLegalMoves_idempotent (b : Board) (p : Board × List Move)
    (hwf : b.wf) (h : GenerateLegalMoves b = some p) :
    GenerateLegalMoves p.1 = some p := by
  rw [generateLegalMoves_some_fst hwf h]
  exact h

/-- Witness for C9 at the standard starting position. -/
theorem generateLegalMoves_idempotent_witness :
    ((GenerateLegalMoves startBoard).bind fun p => GenerateLegalMoves p.1) =
      GenerateLegalMoves startBoard := by
  cases h : GenerateLegalMoves startBoard with
  | none => rfl
  | some p =>
    rw [Option.some_bind, generateLegalMoves_idempotent startBoard p (by decide) h]

/-- C10: the attack oracle `underDirectAttack` and its plural form
`anyUnderDirectAttack` are read-only: whenever they return, the board
they leave behind is exactly the input board, for every board and every
square. -/
theorem attack_oracle_readonly (b : Board) (byBlack : Bool) (origin : Nat)
    (squares : List Nat) :
    (∀ r b', underDirectAttackSt b byBlack origin = some (r, b') → b' = b) ∧
    (∀ r b', anyUnderDirectAttackSt b byBlack squares = some (r, b') → b' = b) :=
  ⟨underDirectAttackSt_snd b byBlack origin,
   fun r b' h => anyUnderDirectAttackSt_snd byBlack squares b r b' h⟩

/-- Witness for C10 at the standard starting position. -/
theorem attack_oracle_readonly_witness :
    (underDirectAttackSt startBoard true 20).map Prod.snd = some startBoard ∧
    (anyUnderDirectAttackSt startBoard true [0, 1, 2]).map Prod.snd = some startBoard := by
  constructor
  · cases h : underDirectAttackSt startBoard true 20 with
    | none => exact absurd h (by decide)
    | some a =>
      have hb := (attack_oracle_readonly startBoard true 20 [0, 1, 2]).1 a.1 a.2 (by rw [h])
      simp [hb]
  · cases h : anyUnderDirectAttackSt startBoard true [0, 1, 2] with
    | none => exact absurd h (by decide)
    | some a =>
      have hb := (attack_oracle_readonly startBoard true 20 [0, 1, 2]).2 a.1 a.2 (by rw [h])
      simp [hb]

theorem pawn_probe_black (pawns origin : Nat) (ho : origin < 64) :
    (shl64 1 ((origin + 7) % 256) ||| shl64 1 ((origin + 9) % 256)) &&& pawns ≠ 0 ↔
      codePawnProbeHit true pawns origin := by
  have hM : ∀ i, (shl64 1 ((origin + 7) % 256) ||| shl64 1 ((origin + 9) % 256)).testBit i
      = decide ((i = origin + 7 ∨ i = origin + 9) ∧ i < 64) := by
    intro i
    rw [Nat.testBit_lor, testBit_shl64_one, testBit_shl64_one, ← Bool.decide_and,
      ← Bool.decide_and, ← Bool.decide_or]
    exact decide_eq_decide.mpr (by omega)
  rw [ne_zero_iff_testBit]
  unfold codePawnProbeHit
  constructor
  · rintro ⟨i, hi⟩
    rw [Nat.testBit_land, hM i, Bool.and_eq_true, decide_eq_true_eq] at hi
    exact ⟨i, hi.1.2, hi.2, Or.inl ⟨rfl, hi.1.1⟩⟩
  · rintro ⟨s, hs64, hps, hoff⟩
    refine ⟨s, ?_⟩
    rw [Nat.testBit_land, hM s, Bool.and_eq_true, decide_eq_true_eq]
    rcases hoff with ⟨-, hor⟩ | ⟨hfalse, -⟩
    · exact ⟨⟨hor, hs64⟩, hps⟩
    · simp at hfalse

theorem pawn_probe_white (pawns origin : Nat) (ho : origin < 64) :
    (shl64 1 ((origin + 249) % 256) ||| shl64 1 ((origin + 247) % 256)) &&& pawns ≠ 0 ↔
      codePawnProbeHit false pawns origin := by
  have hM : ∀ i, (shl64 1 ((origin + 249) % 256) ||| shl64 1 ((origin + 247) % 256)).testBit i
      = decide ((i + 7 = origin ∨ i + 9 = origin) ∧ i < 64) := by
    intro i
    rw [Nat.testBit_lor, testBit_shl64_one, testBit_shl64_one, ← Bool.decide_and,
      ← Bool.decide_and, ← Bool.decide_or]
    exact decide_eq_decide.mpr (by omega)
  rw [ne_zero_iff_testBit]
  unfold codePawnProbeHit
  constructor
  · rintro ⟨i, hi⟩
    rw [Nat.testBit_land, hM i, Bool.and_eq_true, decide_eq_true_eq] at hi
    exact ⟨i, hi.1.2, hi.2, Or.inr ⟨rfl, hi.1.1⟩⟩
  · rintro ⟨s, hs64, hps, hoff⟩
    refine ⟨s, ?_⟩
    rw [Nat.testBit_land, hM s, Bool.and_eq_true, decide_eq_true_eq]
    rcases hoff with ⟨hfalse, -⟩ | ⟨-, hor⟩
    · simp at hfalse
    · exact ⟨⟨hor, hs64⟩, hps⟩

/-- C3 (amended): on any board, when the knight, diagonal-slider,
orthogonal-slider and king attacker checks of `underDirectAttack` all
come out empty at `origin`, the oracle returns true iff an opponent pawn
stands on square `origin + 7` or `origin + 9` (attacks by black),
resp. `origin - 7` or `origin - 9` (attacks by white), by plain square
arithmetic with no masking of wraparound across the A/H file boundary;
out-of-range probes contribute nothing (the shift count leaves the
64-bit range), though the literal sign guards in the source are
vacuously true for the unsigned square index. -/
theorem underDirectAttack_pawn_probe_characterization
    (b : Board) (byBlack : Bool) (origin : Nat) (ho : origin < 64)
    (h1 : knightMaskAt origin &&& (if byBlack = true then b.black else b.white).knights = 0)
    (h2 : bishopAttacksAt origin (b.white.all ||| b.black.all) &&&
        (if byBlack = true then b.black else b.white).all &&&
        ((if byBlack = true then b.black else b.white).bishops |||
          (if byBlack = true then b.black else b.white).queens) = 0)
    (h3 : rookAttacksAt origin (b.white.all ||| b.black.all) &&&
        (if byBlack = true then b.black else b.white).all &&&
        ((if byBlack = true then b.black else b.white).rooks |||
          (if byBlack = true then b.black else b.white).queens) = 0)
    (h4 : kingMaskAt origin &&& (if byBlack = true then b.black else b.white).kings = 0) :
    underDirectAttack b byBlack origin = some true ↔
      codePawnProbeHit byBlack (if byBlack = true then b.black else b.white).pawns origin := by
  cases byBlack with
  | true =>
    simp only [if_true] at h1 h2 h3 h4 ⊢
    simp only [underDirectAttack, underDirectAttackSt, knightMasks, magicBishopAttacks,
      magicRookAttacks, kingMasks, if_pos ho, Option.some_bind, if_true, h1, h2, h3, h4,
      ne_eq, not_true_eq_false, not_false_eq_true, if_neg, ite_false, ite_true]
    split
    next hc =>
      simp only [Option.map_some', true_iff, iff_true]
      exact (pawn_probe_black b.black.pawns origin ho).mp hc
    next hc =>
      simp only [Option.map_some']
      constructor
      · intro hfalse
        cases hfalse
      · intro hrhs
        exact absurd ((pawn_probe_black b.black.pawns origin ho).mpr hrhs) hc
  | false =>
    simp only [Bool.false_eq_true, if_false] at h1 h2 h3 h4 ⊢
    simp only [underDirectAttack, underDirectAttackSt, knightMasks, magicBishopAttacks,
      magicRookAttacks, kingMasks, if_pos ho, Option.some_bind, Bool.false_eq_true,
      if_false, h1, h2, h3, h4, ne_eq, not_true_eq_false, not_false_eq_true]
    split
    next hc =>
      simp only [Option.map_some', true_iff, iff_true]
      exact (pawn_probe_white b.white.pawns origin ho).mp hc
    next hc =>
      simp only [Option.map_some']
      constructor
      · intro hfalse
        cases hfalse
      · intro hrhs
        exact absurd ((pawn_probe_white b.white.pawns origin ho).mpr hrhs) hc

/-- Witness for C3 (amended): on `w3Board` the black pawn on b3
(square 17 = 8 + 9) makes the oracle report a2 (square 8) attacked. -/
theorem underDirectAttack_pawn_probe_witness :
    underDirectAttack w3Board true 8 = some true :=
  (underDirectAttack_pawn_probe_characterization w3Board true 8 (by decide) (by decide)
    (by decide) (by decide) (by decide)).mpr ⟨17, by decide, by decide, by decide⟩

/-! ### Pawn-block lemmas -/

theorem pushBlock_fromto (w : Bool) (orb : Int) :
    ∀ u m, m ∈ pushBlock w orb u →
      m.fromSq = intToSquare ((u : Int) + orb) ∧ m.toSq = u := by
  intro u m hm
  simp only [pushBlock] at hm
  split at hm
  · rcases List.mem_map.mp hm with ⟨p, -, rfl⟩
    exact ⟨rfl, rfl⟩
  · rw [List.mem_singleton] at hm
    subst hm
    exact ⟨rfl, rfl⟩

theorem doubleBlock_fromto (orb : Int) :
    ∀ u m, m ∈ doubleBlock orb u →
      m.fromSq = intToSquare ((u : Int) + 2 * orb) ∧ m.toSq = u := by
  intro u m hm
  rw [doubleBlock, List.mem_singleton] at hm
  subst hm
  exact ⟨rfl, rfl⟩

theorem captureBlock_fromto (w : Bool) (dir : Nat) :
    ∀ u m, m ∈ captureBlock w dir u →
      m.fromSq = (if w = true then intToSquare ((u : Int) - (9 - (dir : Int) * 2))
        else intToSquare ((u : Int) + (9 - (dir : Int) * 2))) ∧ m.toSq = u := by
  intro u m hm
  simp only [captureBlock] at hm
  split at hm
  · rcases List.mem_map.mp hm with ⟨p, -, rfl⟩
    constructor
    · cases w <;> rfl
    · cases w <;> rfl
  · rw [List.mem_singleton] at hm
    subst hm
    constructor
    · cases w <;> rfl
    · cases w <;> rfl

theorem pushBlock_promo (w : Bool) (orb : Int) (u : Nat) (hc : canPromoteAt w u) :
    pushBlock w orb u =
      [⟨intToSquare ((u : Int) + orb), u, Knight⟩, ⟨intToSquare ((u : Int) + orb), u, Bishop⟩,
       ⟨intToSquare ((u : Int) + orb), u, Rook⟩, ⟨intToSquare ((u : Int) + orb), u, Queen⟩] := by
  simp only [pushBlock, if_pos hc]
  rfl

theorem pushBlock_single (w : Bool) (orb : Int) (u : Nat) (hc : ¬ canPromoteAt w u) :
    pushBlock w orb u = [⟨intToSquare ((u : Int) + orb), u, 0⟩] := by
  simp only [pushBlock, if_neg hc]
  rfl

theorem doubleBlock_eq (orb : Int) (u : Nat) :
    doubleBlock orb u = [⟨intToSquare ((u : Int) + 2 * orb), u, 0⟩] := rfl

theorem captureBlockT_promo (dir u : Nat) (hc : canPromoteAt true u) :
    captureBlock true dir u =
      [⟨intToSquare ((u : Int) - (9 - (dir : Int) * 2)), u, Knight⟩,
       ⟨intToSquare ((u : Int) - (9 - (dir : Int) * 2)), u, Bishop⟩,
       ⟨intToSquare ((u : Int) - (9 - (dir : Int) * 2)), u, Rook⟩,
       ⟨intToSquare ((u : Int) - (9 - (dir : Int) * 2)), u, Queen⟩] := by
  simp only [captureBlock, if_pos hc]
  rfl

theorem captureBlockT_single (dir u : Nat) (hc : ¬ canPromoteAt true u) :
    captureBlock true dir u = [⟨intToSquare ((u : Int) - (9 - (dir : Int) * 2)), u, 0⟩] := by
  simp only [captureBlock, if_neg hc]
  rfl

theorem captureBlockF_promo (dir u : Nat) (hc : canPromoteAt false u) :
    captureBlock false dir u =
      [⟨intToSquare ((u : Int) + (9 - (dir : Int) * 2)), u, Knight⟩,
       ⟨intToSquare ((u : Int) + (9 - (dir : Int) * 2)), u, Bishop⟩,
       ⟨intToSquare ((u : Int) + (9 - (dir : Int) * 2)), u, Rook⟩,
       ⟨intToSquare ((u : Int) + (9 - (dir : Int) * 2)), u, Queen⟩] := by
  simp only [captureBlock, if_pos hc]
  rfl

theorem captureBlockF_single (dir u : Nat) (hc : ¬ canPromoteAt false u) :
    captureBlock false dir u = [⟨intToSquare ((u : Int) + (9 - (dir : Int) * 2)), u, 0⟩] := by
  simp only [captureBlock, if_neg hc]
  rfl

theorem farRank_iff_canPromote (w : Bool) {t : Nat} (ht : t < 64) :
    farRank w t ↔ canPromoteAt w t := by
  cases w <;> simp [farRank, canPromoteAt] <;> omega

theorem intToSquare_ne {a c : Int} (h : a % 256 ≠ c % 256) :
    intToSquare a ≠ intToSquare c := by
  unfold intToSquare
  intro he
  apply h
  have ha : 0 ≤ a % 256 := Int.emod_nonneg a (by decide)
  have hc2 : 0 ≤ c % 256 := Int.emod_nonneg c (by decide)
  omega

theorem fourthRank_bounds : ∀ t, (0xFF000000 : Nat).testBit t = true → 24 ≤ t ∧ t ≤ 31 := by
  intro t ht
  rcases lt_or_ge t 64 with h | h
  · have hall : ∀ u, u < 64 → ((0xFF000000 : Nat).testBit u = true → 24 ≤ u ∧ u ≤ 31) := by
      decide
    exact hall t h ht
  · rw [testBit_ge_false (by decide) h] at ht
    cases ht

theorem fifthRank_bounds : ∀ t, (0xFF00000000 : Nat).testBit t = true → 32 ≤ t ∧ t ≤ 39 := by
  intro t ht
  rcases lt_or_ge t 64 with h | h
  · have hall : ∀ u, u < 64 → ((0xFF00000000 : Nat).testBit u = true → 32 ≤ u ∧ u ≤ 39) := by
      decide
    exact hall t h ht
  · rw [testBit_ge_false (by decide) h] at ht
    cases ht

theorem pawn_fanout_white (T1 T2 E W : Nat) (hT1 : T1 < U64MOD) (hT2 : T2 < U64MOD)
    (hE : E < U64MOD) (hW : W < U64MOD)
    (hT2r : ∀ u, T2.testBit u = true → 24 ≤ u ∧ u ≤ 31) (f t : Nat) :
    (farRank true t →
      ((bitLoopFlat (pushBlock true (-8)) T1 ++ bitLoopFlat (doubleBlock (-8)) T2 ++
          (bitLoopFlat (captureBlock true 0) E ++ bitLoopFlat (captureBlock true 1) W)).filter
            (fun m => m.fromSq == f && m.toSq == t) = [] ∨
        (bitLoopFlat (pushBlock true (-8)) T1 ++ bitLoopFlat (doubleBlock (-8)) T2 ++
          (bitLoopFlat (captureBlock true 0) E ++ bitLoopFlat (captureBlock true 1) W)).filter
            (fun m => m.fromSq == f && m.toSq == t) =
          [⟨f, t, Knight⟩, ⟨f, t, Bishop⟩, ⟨f, t, Rook⟩, ⟨f, t, Queen⟩])) ∧
    (¬ farRank true t →
      ((bitLoopFlat (pushBlock true (-8)) T1 ++ bitLoopFlat (doubleBlock (-8)) T2 ++
          (bitLoopFlat (captureBlock true 0) E ++ bitLoopFlat (captureBlock true 1) W)).filter
            (fun m => m.fromSq == f && m.toSq == t) = [] ∨
        (bitLoopFlat (pushBlock true (-8)) T1 ++ bitLoopFlat (doubleBlock (-8)) T2 ++
          (bitLoopFlat (captureBlock true 0) E ++ bitLoopFlat (captureBlock true 1) W)).filter
            (fun m => m.fromSq == f && m.toSq == t) = [⟨f, t, 0⟩])) := by
  have h1 := filter_bitLoopFlat (fun u => intToSquare ((u : Int) + (-8)))
    (pushBlock_fromto true (-8)) T1 hT1 f t
  have h2 := filter_bitLoopFlat (fun u => intToSquare ((u : Int) + 2 * (-8)))
    (doubleBlock_fromto (-8)) T2 hT2 f t
  have h3 := filter_bitLoopFlat (fun u => intToSquare ((u : Int) - (9 - (0 : Int) * 2)))
    (fun u m hm => captureBlock_fromto true 0 u m hm) E hE f t
  have h4 := filter_bitLoopFlat (fun u => intToSquare ((u : Int) - (9 - (1 : Int) * 2)))
    (fun u m hm => captureBlock_fromto true 1 u m hm) W hW f t
  rw [List.filter_append, List.filter_append, List.filter_append, h1, h2, h3, h4]
  by_cases hc1 : T1.testBit t = true ∧ f = intToSquare ((t : Int) + (-8))
  · have ht64 : t < 64 := testBit_lt_64 hT1 hc1.1
    have hne2 : ¬ (T2.testBit t = true ∧ f = intToSquare ((t : Int) + 2 * (-8))) := by
      rintro ⟨-, hf2⟩
      exact @intToSquare_ne ((t : Int) + (-8)) ((t : Int) + 2 * (-8)) (by omega)
        (hc1.2.symm.trans hf2)
    have hne3 : ¬ (E.testBit t = true ∧ f = intToSquare ((t : Int) - (9 - (0 : Int) * 2))) := by
      rintro ⟨-, hf2⟩
      exact @intToSquare_ne ((t : Int) + (-8)) ((t : Int) - (9 - (0 : Int) * 2)) (by omega)
        (hc1.2.symm.trans hf2)
    have hne4 : ¬ (W.testBit t = true ∧ f = intToSquare ((t : Int) - (9 - (1 : Int) * 2))) := by
      rintro ⟨-, hf2⟩
      exact @intToSquare_ne ((t : Int) + (-8)) ((t : Int) - (9 - (1 : Int) * 2)) (by omega)
        (hc1.2.symm.trans hf2)
    rw [if_pos hc1, if_neg hne2, if_neg hne3, if_neg hne4]
    simp only [List.append_nil, List.nil_append]
    constructor
    · intro hfar
      right
      rw [pushBlock_promo true (-8) t ((farRank_iff_canPromote true ht64).mp hfar), hc1.2]
    · intro hnfar
      right
      rw [pushBlock_single true (-8) t
        (fun h => hnfar ((farRank_iff_canPromote true ht64).mpr h)), hc1.2]
  · by_cases hc2 : T2.testBit t = true ∧ f = intToSquare ((t : Int) + 2 * (-8))
    · have hbnd := hT2r t hc2.1
      have hne3 : ¬ (E.testBit t = true ∧
          f = intToSquare ((t : Int) - (9 - (0 : Int) * 2))) := by
        rintro ⟨-, hf2⟩
        exact @intToSquare_ne ((t : Int) + 2 * (-8)) ((t : Int) - (9 - (0 : Int) * 2))
          (by omega) (hc2.2.symm.trans hf2)
      have hne4 : ¬ (W.testBit t = true ∧
          f = intToSquare ((t : Int) - (9 - (1 : Int) * 2))) := by
        rintro ⟨-, hf2⟩
        exact @intToSquare_ne ((t : Int) + 2 * (-8)) ((t : Int) - (9 - (1 : Int) * 2))
          (by omega) (hc2.2.symm.trans hf2)
      rw [if_neg hc1, if_pos hc2, if_neg hne3, if_neg hne4]
      simp only [List.append_nil, List.nil_append]
      constructor
      · intro hfar
        exfalso
        simp only [farRank, true_and, false_and, or_false] at hfar
        omega
      · intro hnfar
        right
        rw [doubleBlock_eq, hc2.2]
    · by_cases hc3 : E.testBit t = true ∧ f = intToSquare ((t : Int) - (9 - (0 : Int) * 2))
      · have ht64 : t < 64 := testBit_lt_64 hE hc3.1
        have hne4 : ¬ (W.testBit t = true ∧
            f = intToSquare ((t : Int) - (9 - (1 : Int) * 2))) := by
          rintro ⟨-, hf2⟩
          exact @intToSquare_ne ((t : Int) - (9 - (0 : Int) * 2))
            ((t : Int) - (9 - (1 : Int) * 2)) (by omega) (hc3.2.symm.trans hf2)
        rw [if_neg hc1, if_neg hc2, if_pos hc3, if_neg hne4]
        simp only [List.append_nil, List.nil_append]
        constructor
        · intro hfar
          right
          rw [captureBlockT_promo 0 t ((farRank_iff_canPromote true ht64).mp hfar), hc3.2]
          rfl
        · intro hnfar
          right
          rw [captureBlockT_single 0 t
            (fun h => hnfar ((farRank_iff_canPromote true ht64).mpr h)), hc3.2]
          rfl
      · by_cases hc4 : W.testBit t = true ∧ f = intToSquare ((t : Int) - (9 - (1 : Int) * 2))
        · have ht64 : t < 64 := testBit_lt_64 hW hc4.1
          rw [if_neg hc1, if_neg hc2, if_neg hc3, if_pos hc4]
          simp only [List.append_nil, List.nil_append]
          constructor
          · intro hfar
            right
            rw [captureBlockT_promo 1 t ((farRank_iff_canPromote true ht64).mp hfar), hc4.2]
            rfl
          · intro hnfar
            right
            rw [captureBlockT_single 1 t
              (fun h => hnfar ((farRank_iff_canPromote true ht64).mpr h)), hc4.2]
            rfl
        · rw [if_neg hc1, if_neg hc2, if_neg hc3, if_neg hc4]
          exact ⟨fun _ => Or.inl rfl, fun _ => Or.inl rfl⟩

theorem pawn_fanout_black (T1 T2 E W : Nat) (hT1 : T1 < U64MOD) (hT2 : T2 < U64MOD)
    (hE : E < U64MOD) (hW : W < U64MOD)
    (hT2r : ∀ u, T2.testBit u = true → 32 ≤ u ∧ u ≤ 39) (f t : Nat) :
    (farRank false t →
      ((bitLoopFlat (pushBlock false 8) T1 ++ bitLoopFlat (doubleBlock 8) T2 ++
          (bitLoopFlat (captureBlock false 0) E ++ bitLoopFlat (captureBlock false 1) W)).filter
            (fun m => m.fromSq == f && m.toSq == t) = [] ∨
        (bitLoopFlat (pushBlock false 8) T1 ++ bitLoopFlat (doubleBlock 8) T2 ++
          (bitLoopFlat (captureBlock false 0) E ++ bitLoopFlat (captureBlock false 1) W)).filter
            (fun m => m.fromSq == f && m.toSq == t) =
          [⟨f, t, Knight⟩, ⟨f, t, Bishop⟩, ⟨f, t, Rook⟩, ⟨f, t, Queen⟩])) ∧
    (¬ farRank false t →
      ((bitLoopFlat (pushBlock false 8) T1 ++ bitLoopFlat (doubleBlock 8) T2 ++
          (bitLoopFlat (captureBlock false 0) E ++ bitLoopFlat (captureBlock false 1) W)).filter
            (fun m => m.fromSq == f && m.toSq == t) = [] ∨
        (bitLoopFlat (pushBlock false 8) T1 ++ bitLoopFlat (doubleBlock 8) T2 ++
          (bitLoopFlat (captureBlock false 0) E ++ bitLoopFlat (captureBlock false 1) W)).filter
            (fun m => m.fromSq == f && m.toSq == t) = [⟨f, t, 0⟩])) := by
  have h1 := filter_bitLoopFlat (fun u => intToSquare ((u : Int) + 8))
    (pushBlock_fromto false 8) T1 hT1 f t
  have h2 := filter_bitLoopFlat (fun u => intToSquare ((u : Int) + 2 * 8))
    (doubleBlock_fromto 8) T2 hT2 f t
  have h3 := filter_bitLoopFlat (fun u => intToSquare ((u : Int) + (9 - (0 : Int) * 2)))
    (fun u m hm => captureBlock_fromto false 0 u m hm) E hE f t
  have h4 := filter_bitLoopFlat (fun u => intToSquare ((u : Int) + (9 - (1 : Int) * 2)))
    (fun u m hm => captureBlock_fromto false 1 u m hm) W hW f t
  rw [List.filter_append, List.filter_append, List.filter_append, h1, h2, h3, h4]
  by_cases hc1 : T1.testBit t = true ∧ f = intToSquare ((t : Int) + 8)
  · have ht64 : t < 64 := testBit_lt_64 hT1 hc1.1
    have hne2 : ¬ (T2.testBit t = true ∧ f = intToSquare ((t : Int) + 2 * 8)) := by
      rintro ⟨-, hf2⟩
      exact @intToSquare_ne ((t : Int) + 8) ((t : Int) + 2 * 8) (by omega)
        (hc1.2.symm.trans hf2)
    have hne3 : ¬ (E.testBit t = true ∧ f = intToSquare ((t : Int) + (9 - (0 : Int) * 2))) := by
      rintro ⟨-, hf2⟩
      exact @intToSquare_ne ((t : Int) + 8) ((t : Int) + (9 - (0 : Int) * 2)) (by omega)
        (hc1.2.symm.trans hf2)
    have hne4 : ¬ (W.testBit t = true ∧ f = intToSquare ((t : Int) + (9 - (1 : Int) * 2))) := by
      rintro ⟨-, hf2⟩
      exact @intToSquare_ne ((t : Int) + 8) ((t : Int) + (9 - (1 : Int) * 2)) (by omega)
        (hc1.2.symm.trans hf2)
    rw [if_pos hc1, if_neg hne2, if_neg hne3, if_neg hne4]
    simp only [List.append_nil, List.nil_append]
    constructor
    · intro hfar
      right
      rw [pushBlock_promo false 8 t ((farRank_iff_canPromote false ht64).mp hfar), hc1.2]
    · intro hnfar
      right
      rw [pushBlock_single false 8 t
        (fun h => hnfar ((farRank_iff_canPromote false ht64).mpr h)), hc1.2]
  · by_cases hc2 : T2.testBit t = true ∧ f = intToSquare ((t : Int) + 2 * 8)
    · have hbnd := hT2r t hc2.1
      have hne3 : ¬ (E.testBit t = true ∧
          f = intToSquare ((t : Int) + (9 - (0 : Int) * 2))) := by
        rintro ⟨-, hf2⟩
        exact @intToSquare_ne ((t : Int) + 2 * 8) ((t : Int) + (9 - (0 : Int) * 2))
          (by omega) (hc2.2.symm.trans hf2)
      have hne4 : ¬ (W.testBit t = true ∧
          f = intToSquare ((t : Int) + (9 - (1 : Int) * 2))) := by
        rintro ⟨-, hf2⟩
        exact @intToSquare_ne ((t : Int) + 2 * 8) ((t : Int) + (9 - (1 : Int) * 2))
          (by omega) (hc2.2.symm.trans hf2)
      rw [if_neg hc1, if_pos hc2, if_neg hne3, if_neg hne4]
      simp only [List.append_nil, List.nil_append]
      constructor
      · intro hfar
        exfalso
        simp only [farRank, true_and, false_and, false_or, or_false] at hfar
        omega
      · intro hnfar
        right
        rw [doubleBlock_eq, hc2.2]
    · by_cases hc3 : E.testBit t = true ∧ f = intToSquare ((t : Int) + (9 - (0 : Int) * 2))
      · have ht64 : t < 64 := testBit_lt_64 hE hc3.1
        have hne4 : ¬ (W.testBit t = true ∧
            f = intToSquare ((t : Int) + (9 - (1 : Int) * 2))) := by
          rintro ⟨-, hf2⟩
          exact @intToSquare_ne ((t : Int) + (9 - (0 : Int) * 2))
            ((t : Int) + (9 - (1 : Int) * 2)) (by omega) (hc3.2.symm.trans hf2)
        rw [if_neg hc1, if_neg hc2, if_pos hc3, if_neg hne4]
        simp only [List.append_nil, List.nil_append]
        constructor
        · intro hfar
          right
          rw [captureBlockF_promo 0 t ((farRank_iff_canPromote false ht64).mp hfar), hc3.2]
          rfl
        · intro hnfar
          right
          rw [captureBlockF_single 0 t
            (fun h => hnfar ((farRank_iff_canPromote false ht64).mpr h)), hc3.2]
          rfl
      · by_cases hc4 : W.testBit t = true ∧ f = intToSquare ((t : Int) + (9 - (1 : Int) * 2))
        · have ht64 : t < 64 := testBit_lt_64 hW hc4.1
          rw [if_neg hc1, if_neg hc2, if_neg hc3, if_pos hc4]
          simp only [List.append_nil, List.nil_append]
          constructor
          · intro hfar
            right
            rw [captureBlockF_promo 1 t ((farRank_iff_canPromote false ht64).mp hfar), hc4.2]
            rfl
          · intro hnfar
            right
            rw [captureBlockF_single 1 t
              (fun h => hnfar ((farRank_iff_canPromote false ht64).mpr h)), hc4.2]
            rfl
        · rw [if_neg hc1, if_neg hc2, if_neg hc3, if_neg hc4]
          exact ⟨fun _ => Or.inl rfl, fun _ => Or.inl rfl⟩

/-- C6: for every well-formed board, a pawn push or pawn capture whose
destination lies on the far rank relative to the side to move is emitted
exactly as the four-move promotion fan-out (knight, bishop, rook, queen,
in this order), per origin/destination pair; every other pawn push or
capture (double pushes included, which never reach a far rank) is
emitted exactly once, with no promotion piece. -/
theorem pawn_promotion_fanout (b : Board) (hwf : b.wf) (f t : Nat) :
    (farRank b.wtomove t →
      ((pawnPushes b ++ pawnCaptures b).filter (fun m => m.fromSq == f && m.toSq == t) = [] ∨
        (pawnPushes b ++ pawnCaptures b).filter (fun m => m.fromSq == f && m.toSq == t) =
          [⟨f, t, Knight⟩, ⟨f, t, Bishop⟩, ⟨f, t, Rook⟩, ⟨f, t, Queen⟩])) ∧
    (¬ farRank b.wtomove t →
      ((pawnPushes b ++ pawnCaptures b).filter (fun m => m.fromSq == f && m.toSq == t) = [] ∨
        (pawnPushes b ++ pawnCaptures b).filter (fun m => m.fromSq == f && m.toSq == t) =
          [⟨f, t, 0⟩])) := by
  obtain ⟨hwwf, hbwf, -, -⟩ := hwf
  have hwa : b.white.all < U64MOD := hwwf.1.2.2.2.2.2.2
  have hba : b.black.all < U64MOD := hbwf.1.2.2.2.2.2.2
  have hfree : compl64 b.white.all &&& compl64 b.black.all < U64MOD :=
    land_lt_u64 _ (compl64_lt hba)
  have hts : (if b.enpassant > 0 then shl64 1 b.enpassant else 0) < U64MOD := by
    split
    · exact shl64_lt 1 _
    · decide
  cases hw : b.wtomove with
  | true =>
    have htgt : (if b.enpassant > 0 then shl64 1 b.enpassant else 0) ||| b.black.all <
        U64MOD := lor_lt_u64 hts hba
    simp only [pawnPushes, pawnCaptures, pawnPushBitboards, pawnCaptureBitboards, hw,
      if_true]
    refine pawn_fanout_white _ _ _ _ (land_lt_u64 _ hfree) (land_lt_u64 _ hfree)
      (land_lt_u64 _ htgt) (land_lt_u64 _ htgt) ?_ f t
    intro u hu
    rw [Nat.testBit_land, Bool.and_eq_true, Nat.testBit_land, Bool.and_eq_true] at hu
    exact fourthRank_bounds u hu.1.2
  | false =>
    have htgt : (if b.enpassant > 0 then shl64 1 b.enpassant else 0) ||| b.white.all <
        U64MOD := lor_lt_u64 hts hwa
    simp only [pawnPushes, pawnCaptures, pawnPushBitboards, pawnCaptureBitboards, hw,
      Bool.false_eq_true, if_false]
    refine pawn_fanout_black _ _ _ _ (land_lt_u64 _ hfree) (land_lt_u64 _ hfree)
      (land_lt_u64 _ htgt) (land_lt_u64 _ htgt) ?_ f t
    intro u hu
    rw [Nat.testBit_land, Bool.and_eq_true, Nat.testBit_land, Bool.and_eq_true] at hu
    exact fifthRank_bounds u hu.1.2

/-- Witness for C6: the white pawn on a7 on `promoBoard` promotes on a8
with the four-move fan-out. -/
theorem pawn_promotion_fanout_witness :
    (pawnPushes promoBoard ++ pawnCaptures promoBoard).filter
        (fun m => m.fromSq == 48 && m.toSq == 56) =
      [⟨48, 56, Knight⟩, ⟨48, 56, Bishop⟩, ⟨48, 56, Rook⟩, ⟨48, 56, Queen⟩] := by
  have h := (pawn_promotion_fanout promoBoard (by decide) 48 56).1 (by decide)
  rcases h with h | h
  · exact absurd h (by decide)
  · exact h

/-! ### Capture-characterization lemmas -/

theorem testBit_shl64 (x n j : Nat) :
    (shl64 x n).testBit j = (decide (j < 64) && (decide (j ≥ n) && x.testBit (j - n))) := by
  unfold shl64 U64MOD
  rw [Nat.testBit_mod_two_pow, Nat.testBit_shiftLeft]

theorem notAFile_testBit (j : Nat) : (0xFEFEFEFEFEFEFEFE : Nat).testBit j
    = (decide (j < 64) && decide (j % 8 ≠ 0)) := by
  rcases lt_or_ge j 64 with h | h
  · have hall : ∀ u, u < 64 →
        ((0xFEFEFEFEFEFEFEFE : Nat).testBit u = decide (u % 8 ≠ 0)) := by decide
    rw [hall j h]
    simp [h]
  · rw [testBit_ge_false (by decide) h]
    simp [Nat.not_lt.mpr h]

theorem notHFile_testBit (j : Nat) : (0x7F7F7F7F7F7F7F7F : Nat).testBit j
    = (decide (j < 64) && decide (j % 8 ≠ 7)) := by
  rcases lt_or_ge j 64 with h | h
  · have hall : ∀ u, u < 64 →
        ((0x7F7F7F7F7F7F7F7F : Nat).testBit u = decide (u % 8 ≠ 7)) := by decide
    rw [hall j h]
    simp [h]
  · rw [testBit_ge_false (by decide) h]
    simp [Nat.not_lt.mpr h]

theorem captureBlockT_exists (dir u : Nat) :
    ∃ pr, (Move.mk (intToSquare ((u : Int) - (9 - (dir : Int) * 2))) u pr) ∈
      captureBlock true dir u := by
  by_cases hc : canPromoteAt true u
  · exact ⟨Knight, by rw [captureBlockT_promo dir u hc]; exact List.mem_cons_self _ _⟩
  · exact ⟨0, by rw [captureBlockT_single dir u hc]; exact List.mem_singleton.mpr rfl⟩

theorem captureBlockF_exists (dir u : Nat) :
    ∃ pr, (Move.mk (intToSquare ((u : Int) + (9 - (dir : Int) * 2))) u pr) ∈
      captureBlock false dir u := by
  by_cases hc : canPromoteAt false u
  · exact ⟨Knight, by rw [captureBlockF_promo dir u hc]; exact List.mem_cons_self _ _⟩
  · exact ⟨0, by rw [captureBlockF_single dir u hc]; exact List.mem_singleton.mpr rfl⟩

theorem target_union_testBit {A ep : Nat} (hep : ep < 64) {j : Nat} (_hj : j < 64) :
    (((if ep > 0 then shl64 1 ep else 0) ||| A).testBit j = true ↔
      (A.testBit j = true ∨ (ep > 0 ∧ j = ep))) := by
  rw [Nat.testBit_lor, Bool.or_eq_true]
  constructor
  · rintro (h | h)
    · split at h
      · rw [testBit_shl64_one] at h
        simp only [Bool.and_eq_true, decide_eq_true_eq] at h
        exact Or.inr ⟨‹ep > 0›, h.2⟩
      · rw [Nat.zero_testBit] at h
        cases h
    · exact Or.inl h
  · rintro (h | ⟨hpos, rfl⟩)
    · exact Or.inr h
    · left
      rw [if_pos hpos, testBit_shl64_one]
      simp [hep]

theorem captures_char_white (P A ep : Nat) (_hP : P < U64MOD) (hA : A < U64MOD)
    (hep : ep < 64) (f t : Nat) :
    (∃ pr, Move.mk f t pr ∈
        (bitLoopFlat (captureBlock true 0)
          (shl64 P 9 &&& 0xFEFEFEFEFEFEFEFE &&& ((if ep > 0 then shl64 1 ep else 0) ||| A)) ++
        bitLoopFlat (captureBlock true 1)
          (shl64 P 7 &&& 0x7F7F7F7F7F7F7F7F &&&
            ((if ep > 0 then shl64 1 ep else 0) ||| A)))) ↔
      (f < 64 ∧ t < 64 ∧ P.testBit f = true ∧
        ((t = f + 9 ∧ f % 8 ≠ 7) ∨ (t = f + 7 ∧ f % 8 ≠ 0)) ∧
        (A.testBit t = true ∨ (ep > 0 ∧ t = ep))) := by
  have hTlt : (if ep > 0 then shl64 1 ep else 0) ||| A < U64MOD := by
    refine lor_lt_u64 ?_ hA
    split
    · exact shl64_lt 1 _
    · decide
  have hElt : shl64 P 9 &&& 0xFEFEFEFEFEFEFEFE &&&
      ((if ep > 0 then shl64 1 ep else 0) ||| A) < U64MOD := land_lt_u64 _ hTlt
  have hWlt : shl64 P 7 &&& 0x7F7F7F7F7F7F7F7F &&&
      ((if ep > 0 then shl64 1 ep else 0) ||| A) < U64MOD := land_lt_u64 _ hTlt
  have hEbit : ∀ j, ((shl64 P 9 &&& 0xFEFEFEFEFEFEFEFE &&&
      ((if ep > 0 then shl64 1 ep else 0) ||| A)).testBit j = true ↔
      (j < 64 ∧ 9 ≤ j ∧ P.testBit (j - 9) = true ∧ j % 8 ≠ 0 ∧
        ((if ep > 0 then shl64 1 ep else 0) ||| A).testBit j = true)) := by
    intro j
    rw [Nat.testBit_land, Nat.testBit_land, testBit_shl64, notAFile_testBit]
    simp only [Bool.and_eq_true, decide_eq_true_eq]
    constructor
    · rintro ⟨⟨⟨h1, h2, h3⟩, -, h4⟩, h5⟩
      exact ⟨h1, h2, h3, h4, h5⟩
    · rintro ⟨h1, h2, h3, h4, h5⟩
      exact ⟨⟨⟨h1, h2, h3⟩, h1, h4⟩, h5⟩
  have hWbit : ∀ j, ((shl64 P 7 &&& 0x7F7F7F7F7F7F7F7F &&&
      ((if ep > 0 then shl64 1 ep else 0) ||| A)).testBit j = true ↔
      (j < 64 ∧ 7 ≤ j ∧ P.testBit (j - 7) = true ∧ j % 8 ≠ 7 ∧
        ((if ep > 0 then shl64 1 ep else 0) ||| A).testBit j = true)) := by
    intro j
    rw [Nat.testBit_land, Nat.testBit_land, testBit_shl64, notHFile_testBit]
    simp only [Bool.and_eq_true, decide_eq_true_eq]
    constructor
    · rintro ⟨⟨⟨h1, h2, h3⟩, -, h4⟩, h5⟩
      exact ⟨h1, h2, h3, h4, h5⟩
    · rintro ⟨h1, h2, h3, h4, h5⟩
      exact ⟨⟨⟨h1, h2, h3⟩, h1, h4⟩, h5⟩
  simp only [List.mem_append, exists_or]
  constructor
  · rintro (⟨pr, hm⟩ | ⟨pr, hm⟩)
    · rw [mem_bitLoopFlat _ hElt] at hm
      obtain ⟨u, hu, hblk⟩ := hm
      obtain ⟨hf, ht⟩ := captureBlock_fromto true 0 u _ hblk
      simp only [eq_self_iff_true, if_true] at hf ht
      subst ht
      obtain ⟨hj64, h9, hPbit, hmod, htg⟩ := (hEbit t).mp hu
      have hfval : f = t - 9 := by
        rw [hf]
        unfold intToSquare
        rw [Int.emod_eq_of_lt (by omega) (by omega)]
        omega
      subst hfval
      exact ⟨by omega, hj64, hPbit, Or.inl ⟨by omega, by omega⟩,
        (target_union_testBit hep hj64).mp htg⟩
    · rw [mem_bitLoopFlat _ hWlt] at hm
      obtain ⟨u, hu, hblk⟩ := hm
      obtain ⟨hf, ht⟩ := captureBlock_fromto true 1 u _ hblk
      simp only [eq_self_iff_true, if_true] at hf ht
      subst ht
      obtain ⟨hj64, h7, hPbit, hmod, htg⟩ := (hWbit t).mp hu
      have hfval : f = t - 7 := by
        rw [hf]
        unfold intToSquare
        rw [Int.emod_eq_of_lt (by omega) (by omega)]
        omega
      subst hfval
      exact ⟨by omega, hj64, hPbit, Or.inr ⟨by omega, by omega⟩,
        (target_union_testBit hep hj64).mp htg⟩
  · rintro ⟨hf64, ht64, hPbit, hdir, htg⟩
    rcases hdir with ⟨rfl, hmod⟩ | ⟨rfl, hmod⟩
    · left
      obtain ⟨pr, hpr⟩ := captureBlockT_exists 0 (f + 9)
      rw [show intToSquare (((f + 9 : Nat) : Int) - (9 - ((0 : Nat) : Int) * 2)) = f by
        unfold intToSquare
        rw [Int.emod_eq_of_lt (by push_cast; omega) (by push_cast; omega)]
        push_cast
        omega] at hpr
      refine ⟨pr, ?_⟩
      rw [mem_bitLoopFlat _ hElt]
      refine ⟨f + 9, ?_, hpr⟩
      rw [hEbit (f + 9)]
      refine ⟨ht64, by omega, ?_, by omega, (target_union_testBit hep ht64).mpr htg⟩
      rw [show f + 9 - 9 = f by omega]
      exact hPbit
    · right
      obtain ⟨pr, hpr⟩ := captureBlockT_exists 1 (f + 7)
      rw [show intToSquare (((f + 7 : Nat) : Int) - (9 - ((1 : Nat) : Int) * 2)) = f by
        unfold intToSquare
        rw [Int.emod_eq_of_lt (by push_cast; omega) (by push_cast; omega)]
        push_cast
        omega] at hpr
      refine ⟨pr, ?_⟩
      rw [mem_bitLoopFlat _ hWlt]
      refine ⟨f + 7, ?_, hpr⟩
      rw [hWbit (f + 7)]
      refine ⟨ht64, by omega, ?_, by omega, (target_union_testBit hep ht64).mpr htg⟩
      rw [show f + 7 - 7 = f by omega]
      exact hPbit

theorem captures_char_black (P A ep : Nat) (hP : P < U64MOD) (hA : A < U64MOD)
    (hep : ep < 64) (f t : Nat) :
    (∃ pr, Move.mk f t pr ∈
        (bitLoopFlat (captureBlock false 0)
          ((P >>> 9) &&& 0x7F7F7F7F7F7F7F7F &&&
            ((if ep > 0 then shl64 1 ep else 0) ||| A)) ++
        bitLoopFlat (captureBlock false 1)
          ((P >>> 7) &&& 0xFEFEFEFEFEFEFEFE &&&
            ((if ep > 0 then shl64 1 ep else 0) ||| A)))) ↔
      (f < 64 ∧ t < 64 ∧ P.testBit f = true ∧
        ((f = t + 9 ∧ f % 8 ≠ 0) ∨ (f = t + 7 ∧ f % 8 ≠ 7)) ∧
        (A.testBit t = true ∨ (ep > 0 ∧ t = ep))) := by
  have hTlt : (if ep > 0 then shl64 1 ep else 0) ||| A < U64MOD := by
    refine lor_lt_u64 ?_ hA
    split
    · exact shl64_lt 1 _
    · decide
  have hWlt : (P >>> 9) &&& 0x7F7F7F7F7F7F7F7F &&&
      ((if ep > 0 then shl64 1 ep else 0) ||| A) < U64MOD := land_lt_u64 _ hTlt
  have hElt : (P >>> 7) &&& 0xFEFEFEFEFEFEFEFE &&&
      ((if ep > 0 then shl64 1 ep else 0) ||| A) < U64MOD := land_lt_u64 _ hTlt
  have hWbit : ∀ j, (((P >>> 9) &&& 0x7F7F7F7F7F7F7F7F &&&
      ((if ep > 0 then shl64 1 ep else 0) ||| A)).testBit j = true ↔
      (j < 64 ∧ P.testBit (9 + j) = true ∧ j % 8 ≠ 7 ∧
        ((if ep > 0 then shl64 1 ep else 0) ||| A).testBit j = true)) := by
    intro j
    rw [Nat.testBit_land, Nat.testBit_land, Nat.testBit_shiftRight, notHFile_testBit]
    simp only [Bool.and_eq_true, decide_eq_true_eq]
    constructor
    · rintro ⟨⟨h1, h2, h3⟩, h4⟩
      exact ⟨h2, h1, h3, h4⟩
    · rintro ⟨h1, h2, h3, h4⟩
      exact ⟨⟨h2, h1, h3⟩, h4⟩
  have hEbit : ∀ j, (((P >>> 7) &&& 0xFEFEFEFEFEFEFEFE &&&
      ((if ep > 0 then shl64 1 ep else 0) ||| A)).testBit j = true ↔
      (j < 64 ∧ P.testBit (7 + j) = true ∧ j % 8 ≠ 0 ∧
        ((if ep > 0 then shl64 1 ep else 0) ||| A).testBit j = true)) := by
    intro j
    rw [Nat.testBit_land, Nat.testBit_land, Nat.testBit_shiftRight, notAFile_testBit]
    simp only [Bool.and_eq_true, decide_eq_true_eq]
    constructor
    · rintro ⟨⟨h1, h2, h3⟩, h4⟩
      exact ⟨h2, h1, h3, h4⟩
    · rintro ⟨h1, h2, h3, h4⟩
      exact ⟨⟨h2, h1, h3⟩, h4⟩
  simp only [List.mem_append, exists_or]
  constructor
  · rintro (⟨pr, hm⟩ | ⟨pr, hm⟩)
    · rw [mem_bitLoopFlat _ hWlt] at hm
      obtain ⟨u, hu, hblk⟩ := hm
      obtain ⟨hf, ht⟩ := captureBlock_fromto false 0 u _ hblk
      simp only [Bool.false_eq_true, if_false] at hf ht
      subst ht
      obtain ⟨hj64, hPbit, hmod, htg⟩ := (hWbit t).mp hu
      have hfval : f = t + 9 := by
        rw [hf]
        unfold intToSquare
        rw [Int.emod_eq_of_lt (by omega) (by push_cast; omega)]
        push_cast
        omega
      subst hfval
      refine ⟨testBit_lt_64 hP (by rw [show t + 9 = 9 + t by omega]; exact hPbit),
        hj64, by rw [show t + 9 = 9 + t by omega]; exact hPbit,
        Or.inl ⟨rfl, by omega⟩, (target_union_testBit hep hj64).mp htg⟩
    · rw [mem_bitLoopFlat _ hElt] at hm
      obtain ⟨u, hu, hblk⟩ := hm
      obtain ⟨hf, ht⟩ := captureBlock_fromto false 1 u _ hblk
      simp only [Bool.false_eq_true, if_false] at hf ht
      subst ht
      obtain ⟨hj64, hPbit, hmod, htg⟩ := (hEbit t).mp hu
      have hfval : f = t + 7 := by
        rw [hf]
        unfold intToSquare
        rw [Int.emod_eq_of_lt (by omega) (by push_cast; omega)]
        push_cast
        omega
      subst hfval
      refine ⟨testBit_lt_64 hP (by rw [show t + 7 = 7 + t by omega]; exact hPbit),
        hj64, by rw [show t + 7 = 7 + t by omega]; exact hPbit,
        Or.inr ⟨rfl, by omega⟩, (target_union_testBit hep hj64).mp htg⟩
  · rintro ⟨hf64, ht64, hPbit, hdir, htg⟩
    rcases hdir with ⟨hfv, hmod⟩ | ⟨hfv, hmod⟩
    · left
      subst hfv
      obtain ⟨pr, hpr⟩ := captureBlockF_exists 0 t
      rw [show intToSquare ((t : Int) + (9 - ((0 : Nat) : Int) * 2)) = t + 9 by
        unfold intToSquare
        rw [Int.emod_eq_of_lt (by push_cast; omega) (by push_cast; omega)]
        push_cast
        omega] at hpr
      refine ⟨pr, ?_⟩
      rw [mem_bitLoopFlat _ hWlt]
      refine ⟨t, ?_, hpr⟩
      rw [hWbit t]
      exact ⟨ht64, by rw [show 9 + t = t + 9 by omega]; exact hPbit, by omega,
        (target_union_testBit hep ht64).mpr htg⟩
    · right
      subst hfv
      obtain ⟨pr, hpr⟩ := captureBlockF_exists 1 t
      rw [show intToSquare ((t : Int) + (9 - ((1 : Nat) : Int) * 2)) = t + 7 by
        unfold intToSquare
        rw [Int.emod_eq_of_lt (by push_cast; omega) (by push_cast; omega)]
        push_cast
        omega] at hpr
      refine ⟨pr, ?_⟩
      rw [mem_bitLoopFlat _ hElt]
      refine ⟨t, ?_, hpr⟩
      rw [hEbit t]
      exact ⟨ht64, by rw [show 7 + t = t + 7 by omega]; exact hPbit, by omega,
        (target_union_testBit hep ht64).mpr htg⟩

/-- C7: for every well-formed board, the capture generator emits a move
from `f` to `t` exactly when a pawn of the side to move stands on `f`,
`t` is one square diagonally forward (east or west, with no wraparound
across the board edge, so the files of `f` and `t` differ by exactly
one), and `t` is either occupied by the opponent or equal to the active
en-passant target square. -/
theorem pawnCaptures_characterization (b : Board) (hwf : b.wf) (f t : Nat) :
    (∃ pr, Move.mk f t pr ∈ pawnCaptures b) ↔
      (f < 64 ∧ t < 64 ∧
        (if b.wtomove = true then b.white.pawns else b.black.pawns).testBit f = true ∧
        (if b.wtomove = true
          then ((t = f + 9 ∧ f % 8 ≠ 7) ∨ (t = f + 7 ∧ f % 8 ≠ 0))
          else ((f = t + 9 ∧ f % 8 ≠ 0) ∨ (f = t + 7 ∧ f % 8 ≠ 7))) ∧
        ((if b.wtomove = true then b.black.all else b.white.all).testBit t = true ∨
          (b.enpassant > 0 ∧ t = b.enpassant))) := by
  obtain ⟨hwwf, hbwf, -, hep⟩ := hwf
  cases hw : b.wtomove with
  | true =>
    simp only [pawnCaptures, pawnCaptureBitboards, hw, if_true]
    exact captures_char_white b.white.pawns b.black.all b.enpassant hwwf.1.1
      hbwf.1.2.2.2.2.2.2 hep f t
  | false =>
    simp only [pawnCaptures, pawnCaptureBitboards, hw, Bool.false_eq_true, if_false]
    exact captures_char_black b.black.pawns b.white.all b.enpassant hbwf.1.1
      hwwf.1.2.2.2.2.2.2 hep f t

/-- Witness for C7 on `epBoard`: the white pawn on e5 (square 36)
captures to the en-passant target d6 (square 43) although d6 is empty;
the characterization confirms the en-passant disjunct. -/
theorem pawnCaptures_characterization_witness :
    epBoard.wf ∧ Move.mk 36 43 0 ∈ pawnCaptures epBoard ∧
      epBoard.black.all.testBit 43 = false ∧
      (epBoard.white.pawns.testBit 36 = true ∧ epBoard.enpassant = 43) := by
  refine ⟨by decide, by decide, by decide, ?_, by decide⟩
  have h := (pawnCaptures_characterization epBoard (by decide) 36 43).mp ⟨0, by decide⟩
  simpa using h.2.2.1

/-- C1: on the standard starting position, `GenerateLegalMoves` returns
22 moves, not the 20 the spec states — the castle moves e1–g1 and e1–c1
are emitted although the squares between king and rooks are occupied,
because the clear-path tests in `kingMoves` are constant-true (the
source intersects masks with `&` where a union `|` is needed). -/
theorem generateLegalMoves_start_returns_22 :
    (GenerateLegalMoves startBoard).map (fun p => p.2.length) = some 22 := by
  decide

/-- C2: on the standard starting position white has the kingside castle
right and squares f1 (5) and g1 (6) between king and rook are occupied,
yet the kingside castle move e1–g1 is emitted — the occupied-path
condition of the castling conjunction is not enforced (the clear-path
tests in `kingMoves` are constant-true). -/
theorem kingside_castle_emitted_despite_occupied_path :
    startBoard.whiteCanCastleKingside = true ∧
      startBoard.white.all &&& ((1 <<< 5) ||| (1 <<< 6)) ≠ 0 ∧
      (GenerateLegalMoves startBoard).map (fun p => p.2.contains (Move.mk 4 6 0)) = some true := by
  decide

/-- C8: on the standard starting position the emitted king (castle) move
e1–g1 has destination g1 (square 6), a square occupied by white's own
knight — a generated king move whose destination lies in the mover's
aggregate occupancy, contradicting the no-self-capture property. -/
theorem castle_move_lands_on_own_piece :
    (GenerateLegalMoves startBoard).map (fun p => p.2.contains (Move.mk 4 6 0)) = some true ∧
      startBoard.white.all.testBit 6 = true := by
  decide

/-- C4 counterexample: a board whose fields are all valid machine values
but with zero white kings and white to move makes `GenerateLegalMoves`
hit the out-of-range lookup `kingMasks[64]` (modelled as `none`) — in Go
an index-out-of-range runtime panic, which is fatal to the process. -/
theorem generateLegalMoves_dies_on_kingless_board :
    noKingBoard.fieldsValid ∧ GenerateLegalMoves noKingBoard = none := by
  constructor
  · decide
  · decide

/-- C3 counterexample: on a well-formed board whose only black pawn
stands on h2 (square 15) and where square a2 (square 8) has no knight,
sliding-piece or king attacker, `underDirectAttack` reports a2 attacked
by black — but no black pawn stands on a true diagonal-attack square of
a2: the probe `origin + 7` wraps around the A/H file boundary. -/
theorem underDirectAttack_pawn_wraparound :
    cex3Board.wf ∧
      knightMaskAt 8 &&& cex3Board.black.knights = 0 ∧
      bishopAttacksAt 8 (cex3Board.white.all ||| cex3Board.black.all) &&& cex3Board.black.all &&&
          (cex3Board.black.bishops ||| cex3Board.black.queens) = 0 ∧
      rookAttacksAt 8 (cex3Board.white.all ||| cex3Board.black.all) &&& cex3Board.black.all &&&
          (cex3Board.black.rooks ||| cex3Board.black.queens) = 0 ∧
      kingMaskAt 8 &&& cex3Board.black.kings = 0 ∧
      underDirectAttack cex3Board true 8 = some true ∧
      (∀ s, s < 64 → cex3Board.black.pawns.testBit s → ¬ diagAttackOffsets true 8 s) := by
  refine ⟨by decide, by decide, by decide, by decide, by decide, by decide, ?_⟩
  decide

end Dragontooth
